import Mathlib

/-!
# served: request multiplexer (`src/served/multiplexer.cpp`)

A shallow embedding of the path segmenter `split_path`, of route registration
(`get_segments`, `handle`) and of request dispatch (`forward_to_handler`),
followed by the properties proved about them.

Conventions of the embedding.

* A `std::string` is a Lean `String`; one `Char` stands for one C++ `char`.
* `tmp`/`end` in `split_path` are represented by the characters currently
  stored in `tmp[0 .. end)`.
* An access that the C++ standard leaves undefined is a `fault`; functions
  that can reach one return `Except fault _`.
* Container sizes are assumed to fit the `int` variables `r_size`, `h_size`
  and `seg_index` of `forward_to_handler` (fewer than `2 ^ 31` elements), so
  those conversions are exact and sizes are natural numbers.
-/

namespace served

/-! ## Strings -/

/-- Largest value of the unsigned type `size_t` (64-bit target). -/
def SIZE_MAX : Nat := 2 ^ 64 - 1

/-- The value of `n - 1` in `size_t` arithmetic, for a size `n ≤ SIZE_MAX`:
the subtraction wraps around to `SIZE_MAX` when `n` is `0`. -/
def size_t_pred (n : Nat) : Nat :=
  if n = 0 then SIZE_MAX else n - 1

/-- An execution step whose behaviour the C++ standard does not define. -/
inductive fault where
  /-- The call `s[pos]` on a `std::string` of length `size` with `pos > size`. -/
  | string_index_out_of_range (pos size : Nat)
  deriving DecidableEq, Repr

deriving instance DecidableEq for Except

/-- The call `s[pos]` of `std::string::operator[]`: the character at `pos` when
`pos < s.length()`, the terminating null character when `pos == s.length()`,
undefined otherwise. -/
def string_at (s : String) (pos : Nat) : Except fault Char :=
  if h : pos < s.data.length then .ok s.data[pos]
  else if pos = s.data.length then .ok (Char.ofNat 0)
  else .error (.string_index_out_of_range pos s.data.length)

/-! ## Path parsing -/

/-- The scanning loop of `split_path` (lines 65-79). The arguments are the
characters not yet read (`path_ptr .. eol`), the vector `chunks` and the
contents of `tmp[0 .. end)`; the result is `chunks` and the buffer contents
when the loop exits. -/
def split_path_loop : List Char → List String → List Char → List String × List Char
  | [], chunks, tmp => (chunks, tmp)
  | c :: rest, chunks, tmp =>
    if c = '/' then
      if tmp ≠ [] then
        split_path_loop rest (chunks ++ [String.mk tmp]) []
      else
        split_path_loop rest chunks tmp
    else
      split_path_loop rest chunks (tmp ++ [c])

/-- The function `split_path` (lines 52-92). After the loop a non-empty buffer
is pushed as the last chunk; otherwise `path[path.length() - 1]` is read and an
empty chunk is pushed when that character is a slash. -/
def split_path (path : String) : Except fault (List String) :=
  let st := split_path_loop path.data [] []
  if st.2 ≠ [] then
    .ok (st.1 ++ [String.mk st.2])
  else
    match string_at path (size_t_pred path.data.length) with
    | .error f => .error f
    | .ok c => if c = '/' then .ok (st.1 ++ [""]) else .ok st.1

/-! ## Collaborators declared in headers outside this file -/

/-- Modelled from the spec: the status `served::status_4XX::NOT_FOUND` of
`served/status.hpp`, which is not part of this file ("HTTP 404 semantics"). -/
def status_4XX.NOT_FOUND : Nat := 404

/-- Modelled from the spec: the status `served::status_4XX::METHOD_NOT_ALLOWED`
of `served/status.hpp`, which is not part of this file ("HTTP 405 semantics"). -/
def status_4XX.METHOD_NOT_ALLOWED : Nat := 405

/-- A thrown C++ exception: a `served::request_error` built from a status and a
message, the `std::bad_function_call` of an empty `std::function`, or any other
exception a handler raises. -/
inductive exception where
  | request_error (status : Nat) (message : String)
  | bad_function_call
  | other (what : String)
  deriving DecidableEq, Repr

/-- Modelled from the spec: the part of `served::request` (`served/request.hpp`,
not part of this file) that the multiplexer and its handlers work with:
`url().path()`, `method()` and the named parameters. The type of method tokens
is a parameter. -/
structure request (Method : Type) where
  url_path : String
  method : Method
  params : List (String × String)

/-- A request handler `std::function<void(response &, request &)>`: it may
update the response and the request and either returns or throws. The type of
responses (`served/response.hpp`) is a parameter. -/
abbrev served_req_handler (Method Response : Type) : Type :=
  Response → request Method → Except exception (Response × request Method)

/-- Modelled from the spec: a compiled segment matcher (`served/mux/matchers.hpp`,
not part of this file), of which dispatch uses the pure test `check_match`. -/
structure segment_matcher where
  check_match : String → Bool

/-- Modelled from the spec: `served::methods_handler`
(`served/methods_handler.hpp`, not part of this file), the mapping from method
token to handler of one route. -/
structure methods_handler (Method Response : Type) where
  _handlers : Method → Option (served_req_handler Method Response)

/-- The default-constructed `served::methods_handler()`: no method is set. -/
def methods_handler.empty {Method Response : Type} : methods_handler Method Response :=
  ⟨fun _ => none⟩

/-- The member `method_supported(method)`. -/
def methods_handler.method_supported {Method Response : Type}
    (mh : methods_handler Method Response) (m : Method) : Bool :=
  (mh._handlers m).isSome

/-- The member `operator[](method)` read as a handler: the handler set for the
method, or an empty `std::function` (calling it throws) for a method that is
not set. -/
def methods_handler.index {Method Response : Type}
    (mh : methods_handler Method Response) (m : Method) : served_req_handler Method Response :=
  (mh._handlers m).getD (fun _ _ => .error .bad_function_call)

/-- Assignment of a handler to a method through the handler set. -/
def methods_handler.set {Method Response : Type} [DecidableEq Method]
    (mh : methods_handler Method Response) (m : Method)
    (h : served_req_handler Method Response) : methods_handler Method Response :=
  ⟨fun k => if k = m then some h else mh._handlers k⟩

/-- The container type `path_compiled_segments`. -/
abbrev path_compiled_segments : Type := List segment_matcher

/-- The tuple type `path_handler_candidate`: `std::get<0>` is `.1` and
`std::get<1>` is `.2`. -/
abbrev path_handler_candidate (Method Response : Type) : Type :=
  path_compiled_segments × methods_handler Method Response

/-- The data members of `served::multiplexer`. -/
structure multiplexer (Method Response : Type) where
  _base_path : String
  _handler_candidates : List (path_handler_candidate Method Response)
  _plugin_handlers : List (served_req_handler Method Response)

/-- The constructor `multiplexer::multiplexer()` (lines 32-35). -/
def multiplexer.new {Method Response : Type} : multiplexer Method Response :=
  ⟨"", [], []⟩

/-- The constructor `multiplexer::multiplexer(base_path)` (lines 37-40). -/
def multiplexer.with_base_path {Method Response : Type} (base_path : String) :
    multiplexer Method Response :=
  ⟨base_path, [], []⟩

/-- The member `multiplexer::use_plugin` (lines 44-48). -/
def multiplexer.use_plugin {Method Response : Type} (mux : multiplexer Method Response)
    (plugin : served_req_handler Method Response) : multiplexer Method Response :=
  { mux with _plugin_handlers := mux._plugin_handlers ++ [plugin] }

/-! ## Registration -/

/-- The member `multiplexer::get_segments` (lines 94-105); the compiler
`mux::compile_to_matcher` of `served/mux/matchers.hpp` is a parameter. -/
def get_segments (compile_to_matcher : String → segment_matcher) (path : String) :
    Except fault path_compiled_segments :=
  match split_path path with
  | .error f => .error f
  | .ok chunks => .ok (chunks.map compile_to_matcher)

/-- The member `multiplexer::handle` (lines 109-116): a candidate made of the
compiled segments of `path` and an empty handler set is pushed at the back. The
returned reference designates the handler set of the last candidate. -/
def multiplexer.handle {Method Response : Type} (compile_to_matcher : String → segment_matcher)
    (mux : multiplexer Method Response) (path : String) :
    Except fault (multiplexer Method Response) :=
  match get_segments compile_to_matcher path with
  | .error f => .error f
  | .ok segments =>
    .ok { mux with _handler_candidates :=
            mux._handler_candidates ++ [(segments, methods_handler.empty)] }

/-- A write through the reference returned by `handle`: the handler set of the
last candidate gets `h` for method `m`. -/
def multiplexer.set_back {Method Response : Type} [DecidableEq Method]
    (mux : multiplexer Method Response) (m : Method)
    (h : served_req_handler Method Response) : multiplexer Method Response :=
  match mux._handler_candidates.reverse with
  | [] => mux
  | last :: before =>
    { mux with _handler_candidates := before.reverse ++ [(last.1, last.2.set m h)] }

/-! ## Request forwarding -/

/-- An observable step of a dispatch: a call of `check_match` on the matcher at
position `seg_index` of the candidate at position `candidate` of the table, or
the call of a handler taken from that candidate. -/
inductive event (Method Response : Type) where
  | check_match (candidate seg_index : Nat) (segment : String)
  | handler_call (candidate : Nat) (m : Method) (res : Response) (req : request Method)

/-- How a call of `forward_to_handler` ends: it returns (with the response and
request as the handler left them), it throws, or it runs into undefined
behaviour. -/
inductive completion (Method Response : Type) where
  | returned (res : Response) (req : request Method)
  | threw (e : exception)
  | undefined (f : fault)

/-- A finished call of `forward_to_handler`: the steps it made, in order, and
how it ended. -/
structure run (Method Response : Type) where
  trace : List (event Method Response)
  result : completion Method Response

/-- Says whether an event is a handler call. -/
def event.is_handler_call {Method Response : Type} : event Method Response → Bool
  | .handler_call _ _ _ _ => true
  | .check_match _ _ _ => false

/-- The segment loop (lines 143-150) of candidate number `candidate`, run on
vectors of equal size. The list arguments are the matchers and the request
segments from position `seg_index` on; the result is the value of `seg_index`
when the loop exits (by `break` or because it reached `h_size`) and the trace
extended by the calls made. -/
def segment_loop {Method Response : Type} (candidate : Nat) :
    List segment_matcher → List String → Nat → List (event Method Response) →
      Nat × List (event Method Response)
  | m :: ms, s :: ss, seg_index, tr =>
    if !m.check_match s then
      (seg_index, tr ++ [.check_match candidate seg_index s])
    else
      segment_loop candidate ms ss (seg_index + 1) (tr ++ [.check_match candidate seg_index s])
  | _, _, seg_index, tr => (seg_index, tr)

/-- The body of `if ( seg_index == h_size )` (lines 155-165) for the chosen
candidate, number `index` of the table: the method check, then the handler
call. `method_handler` is a copy of the handler set of the candidate (`auto`
without a reference), so the lookup `operator[]` cannot change the table. The
result is the trace and either the exception thrown or, after the `break`, the
flag `pattern_matched` (now `true`) with the response and the request. -/
def chosen_candidate {Method Response : Type} (candidate : path_handler_candidate Method Response)
    (index : Nat) (res : Response) (req : request Method) (tr : List (event Method Response)) :
    List (event Method Response) × Except exception (Bool × Response × request Method) :=
  let method_handler := candidate.2
  if !method_handler.method_supported req.method then
    (tr, .error (.request_error status_4XX.METHOD_NOT_ALLOWED "Method not allowed"))
  else
    match method_handler.index req.method res req with
    | .error e => (tr ++ [.handler_call index req.method res req], .error e)
    | .ok out => (tr ++ [.handler_call index req.method res req], .ok (true, out))

/-- The candidate loop (lines 130-167). The list argument holds the candidates
not yet visited, the first of them being number `index` of the table. The
result is the trace and either the exception that left the loop or, when the
loop ended or was left by `break`, the flag `pattern_matched` with the response
and the request. -/
def candidates_loop {Method Response : Type} (request_segments : List String)
    (res : Response) (req : request Method) :
    List (path_handler_candidate Method Response) → Nat → List (event Method Response) →
      List (event Method Response) × Except exception (Bool × Response × request Method)
  | [], _, tr => (tr, .ok (false, res, req))
  | candidate :: rest, index, tr =>
    let handler_segments := candidate.1
    let h_size := handler_segments.length
    let r_size := request_segments.length
    if h_size ≠ r_size then
      candidates_loop request_segments res req rest (index + 1) tr
    else
      let sl := segment_loop index handler_segments request_segments 0 tr
      if sl.1 = h_size then
        chosen_candidate candidate index res req sl.2
      else
        candidates_loop request_segments res req rest (index + 1) sl.2

/-- The end of `forward_to_handler` (lines 169-173), from the way the candidate
loop was left: an exception thrown inside the loop propagates; otherwise the
"Path not found" error is thrown when `pattern_matched` is `false`, and the
function returns when it is `true`. -/
def after_loop {Method Response : Type}
    (exit : List (event Method Response) × Except exception (Bool × Response × request Method)) :
    run Method Response :=
  match exit.2 with
  | .error e => ⟨exit.1, .threw e⟩
  | .ok (pattern_matched, res, req) =>
    if !pattern_matched then
      ⟨exit.1, .threw (.request_error status_4XX.NOT_FOUND "Path not found")⟩
    else
      ⟨exit.1, .returned res req⟩

/-- The member `multiplexer::forward_to_handler` (lines 120-174): the request
path is split, the candidates are scanned from the first one, with
`pattern_matched` initially `false`, and the function ends as `after_loop`
says. -/
def multiplexer.forward_to_handler {Method Response : Type} (mux : multiplexer Method Response)
    (res : Response) (req : request Method) : run Method Response :=
  match split_path req.url_path with
  | .error f => ⟨[], .undefined f⟩
  | .ok request_segments =>
    after_loop (candidates_loop request_segments res req mux._handler_candidates 0 [])

/-! ## Vocabulary of the properties -/

/-- A candidate fully matches a list of request segments: it has as many
matchers as there are segments and its matcher at every position accepts the
segment at that position. -/
def fully_matches {Method Response : Type} (candidate : path_handler_candidate Method Response)
    (segments : List String) : Prop :=
  candidate.1.length = segments.length ∧
    ∀ (i : Nat) (m : segment_matcher) (s : String),
      candidate.1[i]? = some m → segments[i]? = some s → m.check_match s = true

/-- The handler calls recorded in a trace, in order. -/
def handler_calls {Method Response : Type} (tr : List (event Method Response)) :
    List (event Method Response) :=
  tr.filter event.is_handler_call

/-- The error `forward_to_handler` throws at line 172. -/
def not_found_error : exception :=
  .request_error status_4XX.NOT_FOUND "Path not found"

/-- The error `forward_to_handler` throws at line 161. -/
def method_not_allowed_error : exception :=
  .request_error status_4XX.METHOD_NOT_ALLOWED "Method not allowed"

/-- The completion of `forward_to_handler` that passes on the outcome of a
handler call: a return, or the exception the handler threw. -/
def completion.of_handler {Method Response : Type} :
    Except exception (Response × request Method) → completion Method Response
  | .ok out => .returned out.1 out.2
  | .error e => .threw e

/-- Boolean test of the second half of `fully_matches` on lists of equal
length: every matcher accepts the segment at its position. -/
def accepts_all : List segment_matcher → List String → Bool
  | m :: ms, s :: ss => m.check_match s && accepts_all ms ss
  | _, _ => true

/-! ## Data of the worked examples -/

/-- Modelled from the spec: method tokens for the worked examples (the
enumeration `served::method` is declared in `served/methods.hpp`, which is not
part of this file). -/
inductive method where
  | GET
  | POST
  | DELETE
  deriving DecidableEq, Repr

/-- Modelled from the spec: the literal matcher, "matches iff the runtime
segment equals `text` exactly". -/
def literal_matcher (text : String) : segment_matcher :=
  ⟨fun s => decide (s = text)⟩

/-- Modelled from the spec: the parameter matcher without constraint, "matches
any non-empty segment". -/
def parameter_matcher : segment_matcher :=
  ⟨fun s => decide (s ≠ "")⟩

/-- A handler for the worked examples: it appends `tag` to the response, which
is a string there, and returns. -/
def tagging_handler (tag : String) : served_req_handler method String :=
  fun res req => .ok (res ++ tag, req)

/-- The handler set with the single handler `h` for method `m`. -/
def single_handler (m : method) (h : served_req_handler method String) :
    methods_handler method String :=
  methods_handler.empty.set m h

/-- Two routes of the shape of `/users`, registered in this order: the first
with a handler for POST only, the second with a handler for GET. -/
def two_users_routes : multiplexer method String :=
  ⟨"", [([literal_matcher "users"], single_handler .POST (tagging_handler "R1")),
        ([literal_matcher "users"], single_handler .GET (tagging_handler "R2"))], []⟩

/-- The route of `/users/:id` (a literal and a parameter matcher) with a
handler for GET. -/
def users_id_route : multiplexer method String :=
  ⟨"", [([literal_matcher "users", parameter_matcher],
          single_handler .GET (tagging_handler "H"))], []⟩

/-! ## Reference definition of the segmentation -/

/-- The segmentation as the specification words it: the maximal non-empty runs
of characters other than the slash (the pieces between slashes that are not
empty), in order, followed by one empty string if the last character of the
path is a slash and by nothing otherwise. -/
def split_path_reference (path : String) : List String :=
  ((path.data.splitOn '/').filter (fun piece => decide (piece ≠ []))).map String.mk ++
    (if path.data.getLast? = some '/' then [""] else [])

/-! ## Further vocabulary: joining, matcher variants, decisions -/

/-- The segments joined with a single slash between consecutive elements, with
no separator before the first or after the last element. -/
def join_segments : List String → String
  | [] => ""
  | [a] => a
  | a :: b :: rest => a ++ "/" ++ join_segments (b :: rest)

/-- Modelled from the spec: the variants of a compiled segment matcher
(`served/mux/matchers.hpp`, not part of this file), "Literal(text)" and
"Parameter(name)" without constraint. -/
inductive matcher_variant where
  | Literal (text : String)
  | Parameter (name : String)
  deriving DecidableEq, Repr

/-- The test `check_match` of a matcher variant. -/
def matcher_variant.to_matcher : matcher_variant → segment_matcher
  | .Literal text => literal_matcher text
  | .Parameter _ => parameter_matcher

/-- The value bound to a parameter name in the parameters of a request. -/
def request.param {Method : Type} (req : request Method) (name : String) : Option String :=
  req.params.lookup name

/-- The routing decision of a dispatch: the handler of the candidate at some
position was called, or the dispatcher threw one of its two errors. -/
inductive decision where
  | handled (candidate : Nat)
  | not_found
  | method_not_allowed
  | undecided
  deriving DecidableEq, Repr

/-- The routing decision read off a finished call of `forward_to_handler`: the
position of the candidate whose handler was called if there is exactly one
handler call, and otherwise, without handler call, the error thrown. -/
def run.decision {Method Response : Type} (r : run Method Response) : decision :=
  match handler_calls r.trace with
  | [.handler_call i _ _ _] => .handled i
  | [] =>
    match r.result with
    | .threw e =>
      if e = not_found_error then .not_found
      else if e = method_not_allowed_error then .method_not_allowed
      else .undecided
    | _ => .undecided
  | _ => .undecided

/-! ## Request forwarding with the state of the multiplexer -/

/-- Modelled from the spec: the member `operator[](method)` of
`served::methods_handler` ("indexed access per HTTP method token") in its most
permissive reading, that of `std::map::operator[]`: it yields the handler of the
method and the handler set after the access, in which an empty handler has been
added for a method that was not set. -/
def methods_handler.subscript {Method Response : Type} [DecidableEq Method]
    (mh : methods_handler Method Response) (m : Method) :
    served_req_handler Method Response × methods_handler Method Response :=
  match mh._handlers m with
  | some h => (h, mh)
  | none => (fun _ _ => .error .bad_function_call, mh.set m (fun _ _ => .error .bad_function_call))

/-- The body of `if ( seg_index == h_size )` (lines 155-165) with the object
state: `candidate` is a `const` reference into the table of `mux`, and
`method_handler` is a local copy of its handler set; the access `operator[]`
acts on that copy, whose new value is dropped at the end of the block. No
member of `mux` is written. -/
def chosen_candidate_state {Method Response : Type} [DecidableEq Method]
    (mux : multiplexer Method Response) (candidate : path_handler_candidate Method Response)
    (index : Nat) (res : Response) (req : request Method) (tr : List (event Method Response)) :
    (List (event Method Response) × Except exception (Bool × Response × request Method)) ×
      multiplexer Method Response :=
  let method_handler := candidate.2
  if !method_handler.method_supported req.method then
    ((tr, .error (.request_error status_4XX.METHOD_NOT_ALLOWED "Method not allowed")), mux)
  else
    let access := method_handler.subscript req.method
    match access.1 res req with
    | .error e => ((tr ++ [.handler_call index req.method res req], .error e), mux)
    | .ok out => ((tr ++ [.handler_call index req.method res req], .ok (true, out)), mux)

/-- The candidate loop (lines 130-167) with the object state: the range-based
`for` reads the candidates through `const` references, and the state is handed
from one iteration to the next. -/
def candidates_loop_state {Method Response : Type} [DecidableEq Method]
    (request_segments : List String) (res : Response) (req : request Method) :
    List (path_handler_candidate Method Response) → Nat → multiplexer Method Response →
      List (event Method Response) →
      (List (event Method Response) × Except exception (Bool × Response × request Method)) ×
        multiplexer Method Response
  | [], _, mux, tr => ((tr, .ok (false, res, req)), mux)
  | candidate :: rest, index, mux, tr =>
    let handler_segments := candidate.1
    let h_size := handler_segments.length
    let r_size := request_segments.length
    if h_size ≠ r_size then
      candidates_loop_state request_segments res req rest (index + 1) mux tr
    else
      let sl := segment_loop index handler_segments request_segments 0 tr
      if sl.1 = h_size then
        chosen_candidate_state mux candidate index res req sl.2
      else
        candidates_loop_state request_segments res req rest (index + 1) mux sl.2

/-- The member `multiplexer::forward_to_handler` (lines 120-174) with the
object state: the finished call and the multiplexer as the call leaves it.
Handlers act on the response and the request only. -/
def multiplexer.forward_to_handler_state {Method Response : Type} [DecidableEq Method]
    (mux : multiplexer Method Response) (res : Response) (req : request Method) :
    run Method Response × multiplexer Method Response :=
  match split_path req.url_path with
  | .error f => (⟨[], .undefined f⟩, mux)
  | .ok request_segments =>
    let exit :=
      candidates_loop_state request_segments res req mux._handler_candidates 0 mux []
    (after_loop exit.1, exit.2)

/-- Two routes, the first of the shape of `/users` and the second of the shape
of `/users/:id`, each with a handler for GET. -/
def users_and_users_id_routes : multiplexer method String :=
  ⟨"", [([literal_matcher "users"], single_handler .GET (tagging_handler "L")),
        ([literal_matcher "users", parameter_matcher],
          single_handler .GET (tagging_handler "P"))], []⟩

/-- The route of `/users/:id` given by its matcher variants, a literal and the
parameter named `id`, with a handler for GET. -/
def users_id_variants_route : multiplexer method String :=
  ⟨"", [([matcher_variant.Literal "users", matcher_variant.Parameter "id"].map
          matcher_variant.to_matcher, single_handler .GET (tagging_handler "H"))], []⟩

/-! ## Lemmas on the dispatch loops -/

section dispatch_lemmas

variable {Method Response : Type}

theorem accepts_all_iff (ms : List segment_matcher) (ss : List String)
    (hlen : ms.length = ss.length) :
    accepts_all ms ss = true ↔
      ∀ (i : Nat) (m : segment_matcher) (s : String),
        ms[i]? = some m → ss[i]? = some s → m.check_match s = true := by
  induction ms generalizing ss with
  | nil => simp [accepts_all]
  | cons m ms ih =>
    cases ss with
    | nil => simp at hlen
    | cons s ss =>
      have hlen1 : ms.length = ss.length := by simpa using hlen
      simp only [accepts_all, Bool.and_eq_true, ih ss hlen1]
      constructor
      · intro h i m1 s1 h1 h2
        cases i with
        | zero =>
          simp only [List.getElem?_cons_zero, Option.some.injEq] at h1 h2
          subst h1; subst h2; exact h.1
        | succ j =>
          simp only [List.getElem?_cons_succ] at h1 h2
          exact h.2 j m1 s1 h1 h2
      · intro h
        exact ⟨h 0 m s (by simp) (by simp),
          fun i m1 s1 h1 h2 => h (i + 1) m1 s1 (by simpa using h1) (by simpa using h2)⟩

theorem fully_matches_iff_accepts_all
    (candidate : path_handler_candidate Method Response) (segments : List String) :
    (candidate.1.length = segments.length ∧ accepts_all candidate.1 segments = true) ↔
      fully_matches candidate segments := by
  constructor
  · intro h; exact ⟨h.1, (accepts_all_iff _ _ h.1).1 h.2⟩
  · intro h; exact ⟨h.1, (accepts_all_iff _ _ h.1).2 h.2⟩

theorem segment_loop_handler_calls (c : Nat) (ms : List segment_matcher) (ss : List String)
    (k : Nat) (tr : List (event Method Response)) :
    handler_calls (segment_loop c ms ss k tr).2 = handler_calls tr := by
  induction ms generalizing ss k tr with
  | nil => simp [segment_loop]
  | cons m ms ih =>
    cases ss with
    | nil => simp [segment_loop]
    | cons s ss =>
      simp only [segment_loop]
      split
      · simp [handler_calls, event.is_handler_call]
      · rw [ih]; simp [handler_calls, event.is_handler_call]

theorem segment_loop_fst_le (c : Nat) (ms : List segment_matcher) (ss : List String)
    (k : Nat) (tr : List (event Method Response)) :
    (segment_loop c ms ss k tr).1 ≤ k + ms.length := by
  induction ms generalizing ss k tr with
  | nil => simp [segment_loop]
  | cons m ms ih =>
    cases ss with
    | nil => simp [segment_loop]
    | cons s ss =>
      simp only [segment_loop]
      split
      · simp
      · have := ih ss (k + 1) (tr ++ [.check_match c k s])
        simp only [List.length_cons]; omega

theorem segment_loop_fst_eq_iff (c : Nat) (ms : List segment_matcher) (ss : List String)
    (k : Nat) (tr : List (event Method Response)) (hlen : ms.length = ss.length) :
    (segment_loop c ms ss k tr).1 = k + ms.length ↔
      ∀ (i : Nat) (m : segment_matcher) (s : String),
        ms[i]? = some m → ss[i]? = some s → m.check_match s = true := by
  induction ms generalizing ss k tr with
  | nil => simp [segment_loop]
  | cons m ms ih =>
    cases ss with
    | nil => simp at hlen
    | cons s ss =>
      have hlen1 : ms.length = ss.length := by simpa using hlen
      simp only [segment_loop]
      by_cases hc : m.check_match s = true
      · simp only [hc, Bool.not_true, Bool.false_eq_true, if_false]
        rw [show k + (m :: ms).length = k + 1 + ms.length by simp; omega, ih ss _ _ hlen1]
        constructor
        · intro h i m1 s1 h1 h2
          cases i with
          | zero =>
            simp only [List.getElem?_cons_zero, Option.some.injEq] at h1 h2
            subst h1; subst h2; exact hc
          | succ j =>
            simp only [List.getElem?_cons_succ] at h1 h2
            exact h j m1 s1 h1 h2
        · intro h i m1 s1 h1 h2
          exact h (i + 1) m1 s1 (by simpa using h1) (by simpa using h2)
      · have hc1 : m.check_match s = false := by simpa using hc
        simp only [hc1, Bool.not_false, if_true]
        constructor
        · intro h; simp at h
        · intro h
          have := h 0 m s (by simp) (by simp)
          exact absurd this hc

theorem segment_loop_zero_eq_iff (c : Nat) (cand : path_handler_candidate Method Response)
    (segs : List String) (tr : List (event Method Response))
    (hlen : cand.1.length = segs.length) :
    (segment_loop c cand.1 segs 0 tr).1 = cand.1.length ↔ fully_matches cand segs := by
  have h := segment_loop_fst_eq_iff c cand.1 segs 0 tr hlen
  rw [Nat.zero_add] at h
  rw [h]
  exact ⟨fun h1 => ⟨hlen, h1⟩, fun h1 => h1.2⟩

/-- When no candidate fully matches, the candidate loop runs to its end with
`pattern_matched` still `false` and calls no handler. -/
theorem candidates_loop_no_match (segs : List String) (res : Response) (req : request Method)
    (table : List (path_handler_candidate Method Response)) (idx : Nat)
    (tr : List (event Method Response))
    (hno : ∀ c ∈ table, ¬ fully_matches c segs) :
    (candidates_loop segs res req table idx tr).2 = .ok (false, res, req) ∧
      handler_calls (candidates_loop segs res req table idx tr).1 = handler_calls tr := by
  induction table generalizing idx tr with
  | nil => simp [candidates_loop]
  | cons c rest ih =>
    have hrest : ∀ c1 ∈ rest, ¬ fully_matches c1 segs :=
      fun c1 h1 => hno c1 (List.mem_cons_of_mem _ h1)
    have hc : ¬ fully_matches c segs := hno c (List.mem_cons_self _ _)
    simp only [candidates_loop]
    by_cases hlen : c.1.length = segs.length
    · have hne : (segment_loop idx c.1 segs 0 tr).1 ≠ c.1.length :=
        fun h => hc ((segment_loop_zero_eq_iff idx c segs tr hlen).1 h)
      simp only [hlen, ne_eq, not_true_eq_false, if_false]
      rw [hlen] at hne
      simp only [hne, if_false]
      have := ih (idx + 1) (segment_loop idx c.1 segs 0 tr).2 hrest
      rw [segment_loop_handler_calls] at this
      exact this
    · simp only [ne_eq, hlen, not_false_eq_true, if_true]
      exact ih (idx + 1) tr hrest

/-- When the candidate at position `i` of the remaining table is the first one
that fully matches, the candidate loop ends in `chosen_candidate` for it, having
called no handler before. -/
theorem candidates_loop_first_match (segs : List String) (res : Response) (req : request Method)
    (table : List (path_handler_candidate Method Response)) (idx : Nat)
    (tr : List (event Method Response)) (i : Nat) (c : path_handler_candidate Method Response)
    (hi : table[i]? = some c) (hc : fully_matches c segs)
    (hfirst : ∀ (j : Nat) (c1 : path_handler_candidate Method Response),
      j < i → table[j]? = some c1 → ¬ fully_matches c1 segs) :
    ∃ tr1, handler_calls tr1 = handler_calls tr ∧
      candidates_loop segs res req table idx tr = chosen_candidate c (idx + i) res req tr1 := by
  induction table generalizing idx tr i with
  | nil => simp at hi
  | cons c0 rest ih =>
    cases i with
    | zero =>
      simp only [List.getElem?_cons_zero, Option.some.injEq] at hi
      subst hi
      have hlen := hc.1
      have heq := (segment_loop_zero_eq_iff idx c0 segs tr hlen).2 hc
      refine ⟨(segment_loop idx c0.1 segs 0 tr).2, segment_loop_handler_calls _ _ _ _ _, ?_⟩
      simp only [candidates_loop]
      rw [hlen] at heq
      simp only [hlen, ne_eq, not_true_eq_false, if_false, heq, if_true, Nat.add_zero]
    | succ j =>
      simp only [List.getElem?_cons_succ] at hi
      have hc0 : ¬ fully_matches c0 segs := hfirst 0 c0 (Nat.succ_pos _) (by simp)
      have hfirst1 : ∀ (k : Nat) (c1 : path_handler_candidate Method Response),
          k < j → rest[k]? = some c1 → ¬ fully_matches c1 segs :=
        fun k c1 hk h1 => hfirst (k + 1) c1 (Nat.succ_lt_succ hk) (by simpa using h1)
      simp only [candidates_loop]
      by_cases hlen : c0.1.length = segs.length
      · have hne : (segment_loop idx c0.1 segs 0 tr).1 ≠ c0.1.length :=
          fun h => hc0 ((segment_loop_zero_eq_iff idx c0 segs tr hlen).1 h)
        rw [hlen] at hne
        simp only [hlen, ne_eq, not_true_eq_false, if_false, hne]
        obtain ⟨tr1, h1, h2⟩ := ih (idx + 1) (segment_loop idx c0.1 segs 0 tr).2 j hi hfirst1
        refine ⟨tr1, ?_, ?_⟩
        · rw [h1, segment_loop_handler_calls]
        · rw [h2, show idx + 1 + j = idx + (j + 1) by omega]
      · simp only [ne_eq, hlen, not_false_eq_true, if_true]
        obtain ⟨tr1, h1, h2⟩ := ih (idx + 1) tr j hi hfirst1
        exact ⟨tr1, h1, by rw [h2, show idx + 1 + j = idx + (j + 1) by omega]⟩

/-- A table with a fully matching candidate has a first one. -/
theorem exists_first_match (segs : List String)
    (table : List (path_handler_candidate Method Response))
    (h : ∃ c ∈ table, fully_matches c segs) :
    ∃ (i : Nat) (c : path_handler_candidate Method Response),
      table[i]? = some c ∧ fully_matches c segs ∧
      ∀ (j : Nat) (c1 : path_handler_candidate Method Response),
        j < i → table[j]? = some c1 → ¬ fully_matches c1 segs := by
  induction table with
  | nil => simp at h
  | cons c0 rest ih =>
    by_cases h0 : fully_matches c0 segs
    · exact ⟨0, c0, by simp, h0, fun j c1 hj => absurd hj (Nat.not_lt_zero j)⟩
    · obtain ⟨c, hmem, hc⟩ := h
      have hrest : ∃ c ∈ rest, fully_matches c segs := by
        rcases List.mem_cons.1 hmem with h1 | h1
        · subst h1; exact absurd hc h0
        · exact ⟨c, h1, hc⟩
      obtain ⟨i, c2, hi, hc2, hfirst⟩ := ih hrest
      refine ⟨i + 1, c2, by simpa using hi, hc2, ?_⟩
      intro j c1 hj h1
      cases j with
      | zero =>
        simp only [List.getElem?_cons_zero, Option.some.injEq] at h1
        subst h1; exact h0
      | succ k =>
        exact hfirst k c1 (Nat.lt_of_succ_lt_succ hj) (by simpa using h1)

theorem chosen_candidate_unsupported (c : path_handler_candidate Method Response) (i : Nat)
    (res : Response) (req : request Method) (tr : List (event Method Response))
    (hm : c.2.method_supported req.method = false) :
    chosen_candidate c i res req tr = (tr, .error method_not_allowed_error) := by
  simp [chosen_candidate, hm, method_not_allowed_error]

theorem chosen_candidate_supported (c : path_handler_candidate Method Response) (i : Nat)
    (res : Response) (req : request Method) (tr : List (event Method Response))
    (h : served_req_handler Method Response) (hm : c.2._handlers req.method = some h) :
    chosen_candidate c i res req tr =
      (tr ++ [.handler_call i req.method res req],
        (h res req).map (fun out => (true, out))) := by
  have hs : c.2.method_supported req.method = true := by
    simp [methods_handler.method_supported, hm]
  have hidx : c.2.index req.method = h := by
    simp [methods_handler.index, hm]
  simp only [chosen_candidate, hs, Bool.not_true, Bool.false_eq_true, if_false, hidx]
  cases h res req <;> rfl

/-- The value of `forward_to_handler` once the request path is split. -/
theorem forward_to_handler_of_split (mux : multiplexer Method Response) (res : Response)
    (req : request Method) (segs : List String) (hsplit : split_path req.url_path = .ok segs) :
    mux.forward_to_handler res req =
      after_loop (candidates_loop segs res req mux._handler_candidates 0 []) := by
  unfold multiplexer.forward_to_handler
  rw [hsplit]

theorem after_loop_handler (tr : List (event Method Response))
    (out : Except exception (Response × request Method)) :
    after_loop (tr, out.map (fun o => (true, o))) = ⟨tr, completion.of_handler out⟩ := by
  cases out <;> rfl

theorem handler_calls_append_call (tr : List (event Method Response)) (i : Nat) (m : Method)
    (res : Response) (req : request Method) :
    handler_calls (tr ++ [.handler_call i m res req]) =
      handler_calls tr ++ [.handler_call i m res req] := by
  simp [handler_calls, event.is_handler_call]

/-- When no candidate fully matches the segments of the request path,
`forward_to_handler` throws its "Path not found" error and calls no handler. -/
theorem forward_to_handler_no_match (mux : multiplexer Method Response) (res : Response)
    (req : request Method) (segs : List String) (hsplit : split_path req.url_path = .ok segs)
    (hno : ∀ c ∈ mux._handler_candidates, ¬ fully_matches c segs) :
    (mux.forward_to_handler res req).result = .threw not_found_error ∧
      handler_calls (mux.forward_to_handler res req).trace = [] := by
  obtain ⟨h2, h1⟩ := candidates_loop_no_match segs res req mux._handler_candidates 0 [] hno
  rw [forward_to_handler_of_split mux res req segs hsplit]
  simp only [after_loop, h2]
  exact ⟨rfl, h1⟩

/-- Dispatch to a candidate pushed behind a table in which nothing fully
matches: when the candidate fully matches the segments of the request path and
has the handler `h` for the request method, the only handler call is the call
of `h`, at the position of that candidate, and `forward_to_handler` ends as the
call ends. -/
theorem forward_to_handler_pushed (base : String)
    (table : List (path_handler_candidate Method Response))
    (plugins : List (served_req_handler Method Response))
    (R : path_handler_candidate Method Response) (res : Response) (req : request Method)
    (segs : List String) (h : served_req_handler Method Response)
    (hsplit : split_path req.url_path = .ok segs)
    (hno : ∀ c ∈ table, ¬ fully_matches c segs)
    (hmatch : fully_matches R segs)
    (hm : R.2._handlers req.method = some h) :
    handler_calls ((⟨base, table ++ [R], plugins⟩ :
        multiplexer Method Response).forward_to_handler res req).trace =
        [.handler_call table.length req.method res req] ∧
      ((⟨base, table ++ [R], plugins⟩ :
        multiplexer Method Response).forward_to_handler res req).result =
        completion.of_handler (h res req) := by
  have hR : (table ++ [R])[table.length]? = some R := by simp
  have hfirst : ∀ (j : Nat) (c : path_handler_candidate Method Response),
      j < table.length → (table ++ [R])[j]? = some c → ¬ fully_matches c segs := by
    intro j c hj hc
    rw [List.getElem?_append_left hj] at hc
    exact hno c (List.getElem?_mem hc)
  obtain ⟨tr1, htr, hloop⟩ :=
    candidates_loop_first_match segs res req (table ++ [R]) 0 [] table.length R hR hmatch hfirst
  rw [forward_to_handler_of_split _ res req segs hsplit, hloop,
    chosen_candidate_supported R _ res req tr1 h hm, after_loop_handler, Nat.zero_add]
  refine ⟨?_, rfl⟩
  simp only [handler_calls_append_call, htr]
  rfl

/-- The candidate pushed by `handle`, from the segments of the pattern. -/
theorem handle_of_split (compile_to_matcher : String → segment_matcher)
    (mux : multiplexer Method Response) (path : String) (segs : List String)
    (hsplit : split_path path = .ok segs) :
    mux.handle compile_to_matcher path =
      .ok ⟨mux._base_path,
        mux._handler_candidates ++ [(segs.map compile_to_matcher, methods_handler.empty)],
        mux._plugin_handlers⟩ := by
  simp only [multiplexer.handle, get_segments, hsplit]

/-- A write through the reference returned by `handle` changes the handler set
of the candidate pushed last and nothing else. -/
theorem set_back_pushed [DecidableEq Method] (base : String)
    (table : List (path_handler_candidate Method Response))
    (plugins : List (served_req_handler Method Response))
    (R : path_handler_candidate Method Response) (m : Method)
    (h : served_req_handler Method Response) :
    (⟨base, table ++ [R], plugins⟩ : multiplexer Method Response).set_back m h =
      ⟨base, table ++ [(R.1, R.2.set m h)], plugins⟩ := by
  simp [multiplexer.set_back]

theorem set_handlers_self [DecidableEq Method] (mh : methods_handler Method Response)
    (m : Method) (h : served_req_handler Method Response) :
    (mh.set m h)._handlers m = some h := by
  simp [methods_handler.set]

end dispatch_lemmas

/-! ## Lemmas on `split_path` -/

theorem split_path_loop_append (a b : List Char) (chunks : List String) (tmp : List Char) :
    split_path_loop (a ++ b) chunks tmp =
      split_path_loop b (split_path_loop a chunks tmp).1 (split_path_loop a chunks tmp).2 := by
  induction a generalizing chunks tmp with
  | nil => rfl
  | cons c a ih =>
    simp only [List.cons_append, split_path_loop]
    split
    · split
      · exact ih _ _
      · exact ih _ _
    · exact ih _ _

/-- The chunks pushed by the loop are non-empty and free of slashes, and so is
the buffer as far as slashes go. -/
theorem split_path_loop_invariant (rest : List Char) (chunks : List String) (tmp : List Char)
    (hchunks : ∀ s ∈ chunks, s ≠ "" ∧ '/' ∉ s.data) (htmp : '/' ∉ tmp) :
    (∀ s ∈ (split_path_loop rest chunks tmp).1, s ≠ "" ∧ '/' ∉ s.data) ∧
      '/' ∉ (split_path_loop rest chunks tmp).2 := by
  induction rest generalizing chunks tmp with
  | nil => exact ⟨hchunks, htmp⟩
  | cons c rest ih =>
    simp only [split_path_loop]
    split
    · split
      · rename_i hne
        apply ih
        · intro s hs
          rcases List.mem_append.1 hs with h1 | h1
          · exact hchunks s h1
          · simp only [List.mem_singleton] at h1
            subst h1
            refine ⟨?_, htmp⟩
            intro h
            apply hne
            have : (String.mk tmp).data = ("" : String).data := by rw [h]
            simpa using this
        · simp
      · exact ih _ _ hchunks htmp
    · rename_i hc
      apply ih _ _ hchunks
      intro h
      rcases List.mem_append.1 h with h1 | h1
      · exact htmp h1
      · simp only [List.mem_singleton] at h1
        exact hc h1.symm

/-- The buffer is empty when the loop exits exactly when nothing was read into
an empty buffer or the last character read is a slash. -/
theorem split_path_loop_tmp_nil_iff (rest : List Char) (chunks : List String) (tmp : List Char) :
    (split_path_loop rest chunks tmp).2 = [] ↔
      (rest = [] ∧ tmp = []) ∨ rest.getLast? = some '/' := by
  induction rest generalizing chunks tmp with
  | nil => simp [split_path_loop]
  | cons c rest ih =>
    have hlast : (c :: rest).getLast? = if rest = [] then some c else rest.getLast? := by
      cases rest with
      | nil => simp
      | cons d rest => simp
    simp only [split_path_loop]
    split
    · rename_i hc
      have hrhs : ((c :: rest = [] ∧ tmp = []) ∨ (c :: rest).getLast? = some '/') ↔
          (rest = [] ∨ rest.getLast? = some '/') := by
        rw [hlast, hc]
        by_cases hr : rest = []
        · simp [hr]
        · simp [hr]
      split
      · rw [ih, hrhs]; simp
      · rename_i ht
        have ht1 : tmp = [] := by simpa using ht
        rw [ih, hrhs, ht1]; simp
    · rename_i hc
      rw [ih, hlast]
      by_cases hr : rest = []
      · simp [hr, hc]
      · simp [hr]

/-- On a non-empty string the read `path[path.length() - 1]` is in range and
yields the last character. -/
theorem string_at_last (path : String) (c : Char) (h : path.data.getLast? = some c) :
    string_at path (size_t_pred path.data.length) = .ok c := by
  have hne : path.data ≠ [] := by
    intro h0; rw [h0] at h; simp at h
  have hlen : path.data.length ≠ 0 := fun h0 => hne (List.length_eq_zero.1 h0)
  have hlt : path.data.length - 1 < path.data.length := by omega
  rw [List.getLast?_eq_getElem?, List.getElem?_eq_getElem hlt] at h
  simp only [Option.some.injEq] at h
  simp only [string_at, size_t_pred, hlen, if_false, hlt, dite_true, h]

/-- On the empty string the read `path[path.length() - 1]` is out of range. -/
theorem split_path_empty : split_path "" = .error (.string_index_out_of_range SIZE_MAX 0) := by
  decide

/-- The function `split_path` has a result on every non-empty path, and on no
other. -/
theorem split_path_ok_iff (path : String) :
    (∃ segs, split_path path = .ok segs) ↔ path ≠ "" := by
  constructor
  · rintro ⟨segs, h⟩ hp
    subst hp
    rw [split_path_empty] at h
    cases h
  · intro hp
    have hne : path.data ≠ [] := by
      intro h0
      apply hp
      cases path
      simp only at h0
      subst h0
      rfl
    obtain ⟨c, hc⟩ : ∃ c, path.data.getLast? = some c := by
      cases hl : path.data.getLast? with
      | none => exact absurd (List.getLast?_eq_none_iff.1 hl) hne
      | some c => exact ⟨c, rfl⟩
    simp only [split_path, string_at_last path c hc]
    split
    · exact ⟨_, rfl⟩
    · split <;> exact ⟨_, rfl⟩

/-- The loop of `split_path` in terms of the pieces between slashes of the
characters still to read: the buffer continues into the first piece, every
piece but the last is pushed unless it is empty, and the last piece is what the
buffer holds at the exit. -/
theorem split_path_loop_eq_splitOn (rest : List Char) (chunks : List String) (tmp : List Char) :
    split_path_loop rest chunks tmp =
      (chunks ++ ((((rest.splitOn '/').modifyHead (fun p => tmp ++ p)).dropLast).filter
          (fun piece => decide (piece ≠ []))).map String.mk,
        (((rest.splitOn '/').modifyHead (fun p => tmp ++ p)).getLast?).getD []) := by
  induction rest generalizing chunks tmp with
  | nil => simp [split_path_loop, List.splitOn]
  | cons c rest ih =>
    obtain ⟨q0, qs, hQ⟩ := List.exists_cons_of_ne_nil
      (List.splitOnP_ne_nil (fun x => x == '/') rest)
    have hQ1 : rest.splitOn '/' = q0 :: qs := hQ
    simp only [split_path_loop]
    split
    · rename_i hc
      have hsplit : (c :: rest).splitOn '/' = [] :: q0 :: qs := by
        simp [List.splitOn, List.splitOnP_cons, hc, hQ]
      rw [hsplit]
      split
      · rename_i ht
        rw [ih, hQ1]
        simp [List.modifyHead, ht]
      · rename_i ht
        have ht1 : tmp = [] := by simpa using ht
        rw [ih, hQ1, ht1]
        simp [List.modifyHead]
    · rename_i hc
      have hsplit : (c :: rest).splitOn '/' = (c :: q0) :: qs := by
        simp [List.splitOn, List.splitOnP_cons, hc, hQ, List.modifyHead]
      rw [hsplit, ih, hQ1]
      simp [List.modifyHead]

theorem string_data_ne_nil (path : String) (hp : path ≠ "") : path.data ≠ [] := by
  intro h0
  apply hp
  cases path
  simp only at h0
  subst h0
  rfl

/-- The two ways `split_path` ends on a non-empty path: with a non-empty buffer,
which becomes the last chunk, on a path that does not end in a slash; or with
an empty buffer and an empty last chunk on a path that ends in a slash. -/
theorem split_path_cases (path : String) (hp : path ≠ "") :
    ((split_path_loop path.data [] []).2 ≠ [] ∧ path.data.getLast? ≠ some '/' ∧
        split_path path = .ok ((split_path_loop path.data [] []).1 ++
          [String.mk (split_path_loop path.data [] []).2])) ∨
      ((split_path_loop path.data [] []).2 = [] ∧ path.data.getLast? = some '/' ∧
        split_path path = .ok ((split_path_loop path.data [] []).1 ++ [""])) := by
  have hne := string_data_ne_nil path hp
  have hiff := split_path_loop_tmp_nil_iff path.data [] []
  by_cases ht : (split_path_loop path.data [] []).2 = []
  · right
    have hlast : path.data.getLast? = some '/' := by
      rcases hiff.1 ht with h1 | h1
      · exact absurd h1.1 hne
      · exact h1
    refine ⟨ht, hlast, ?_⟩
    simp only [split_path, ht, ne_eq, not_true_eq_false, if_false,
      string_at_last path '/' hlast, if_true]
  · left
    refine ⟨ht, fun h1 => ht (hiff.2 (Or.inr h1)), ?_⟩
    simp [split_path, ht]

/-- On the empty request path `forward_to_handler` reaches the read
`path[path.length() - 1]` of `split_path` with length `0`, before any matcher or
handler is called. -/
theorem forward_to_handler_empty_path {Method Response : Type} (mux : multiplexer Method Response) (res : Response)
    (req : request Method) (hpath : req.url_path = "") :
    mux.forward_to_handler res req =
      ⟨[], .undefined (.string_index_out_of_range SIZE_MAX 0)⟩ := by
  unfold multiplexer.forward_to_handler
  rw [hpath, split_path_empty]

/-! ## Properties of `split_path` -/

/-- C4. On every non-empty path `split_path` returns the reference
segmentation: the maximal non-empty runs of characters other than the slash, in
order, followed by one empty string exactly when the path ends in a slash. -/
theorem split_path_eq_reference (path : String) (hp : path ≠ "") :
    split_path path = .ok (split_path_reference path) := by
  have hloop := split_path_loop_eq_splitOn path.data [] []
  obtain ⟨q, hq⟩ : ∃ q, (path.data.splitOn '/').getLast? = some q := by
    cases hl : (path.data.splitOn '/').getLast? with
    | none =>
      exact absurd (List.getLast?_eq_none_iff.1 hl)
        (List.splitOnP_ne_nil (fun x => x == '/') path.data)
    | some q => exact ⟨q, rfl⟩
  obtain ⟨init, hinit⟩ := List.getLast?_eq_some_iff.1 hq
  have hmod : (path.data.splitOn '/').modifyHead (fun p => [] ++ p) = init ++ [q] := by
    rw [hinit]
    cases init <;> simp [List.modifyHead]
  rw [hmod] at hloop
  simp only [List.dropLast_concat, List.nil_append, List.getLast?_concat,
    Option.getD_some] at hloop
  rcases split_path_cases path hp with ⟨ht, hlast, hres⟩ | ⟨ht, hlast, hres⟩
  · rw [hres, hloop]
    simp only [hloop] at ht
    simp [split_path_reference, hinit, hlast, ht]
  · rw [hres, hloop]
    simp only [hloop] at ht
    simp [split_path_reference, hinit, hlast, ht]

/-- C4, on the three examples of the specification. -/
theorem split_path_eq_reference_witness :
    (split_path "/a//b" = .ok (split_path_reference "/a//b") ∧
        split_path_reference "/a//b" = ["a", "b"]) ∧
      (split_path "/a/b/" = .ok (split_path_reference "/a/b/") ∧
        split_path_reference "/a/b/" = ["a", "b", ""]) ∧
      (split_path "/a/b" = .ok (split_path_reference "/a/b") ∧
        split_path_reference "/a/b" = ["a", "b"]) :=
  ⟨⟨split_path_eq_reference "/a//b" (by decide), by decide⟩,
    ⟨split_path_eq_reference "/a/b/" (by decide), by decide⟩,
    ⟨split_path_eq_reference "/a/b" (by decide), by decide⟩⟩

/-- C5. Empty segments occur only at the end and only for a trailing slash:
`split_path` has a result on every non-empty path, and in every result all
elements but the last are non-empty strings, and if the last element is the
empty string then the path is non-empty and its last character is a slash. -/
theorem split_path_empty_segment_only_last (path : String) :
    (path ≠ "" → ∃ segs, split_path path = .ok segs) ∧
      ∀ segs, split_path path = .ok segs →
        (∀ s ∈ segs.dropLast, s ≠ "") ∧
          (segs.getLast? = some "" → path ≠ "" ∧ path.data.getLast? = some '/') := by
  refine ⟨(split_path_ok_iff path).2, ?_⟩
  intro segs h
  have hp : path ≠ "" := (split_path_ok_iff path).1 ⟨segs, h⟩
  have hinv := (split_path_loop_invariant path.data [] [] (by simp) (by simp)).1
  rcases split_path_cases path hp with ⟨ht, _, hres⟩ | ⟨_, hlast, hres⟩
  · rw [hres] at h
    injection h with h
    subst h
    simp only [List.dropLast_concat, List.getLast?_concat, Option.some.injEq]
    refine ⟨fun s hs => (hinv s hs).1, ?_⟩
    intro h0
    exfalso
    apply ht
    have : (String.mk (split_path_loop path.data [] []).2).data = ("" : String).data := by
      rw [h0]
    simpa using this
  · rw [hres] at h
    injection h with h
    subst h
    simp only [List.dropLast_concat]
    exact ⟨fun s hs => (hinv s hs).1, fun _ => ⟨hp, hlast⟩⟩

/-- C5, on the path `/a//b/`: the segments are `a`, `b` and a last empty one. -/
theorem split_path_empty_segment_only_last_witness :
    (∀ s ∈ ["a", "b", ""].dropLast, s ≠ "") ∧
      (["a", "b", ""].getLast? = some "" →
        "/a//b/" ≠ "" ∧ "/a//b/".data.getLast? = some '/') :=
  (split_path_empty_segment_only_last "/a//b/").2 ["a", "b", ""] rfl

/-- C6. No segment contains a slash: `split_path` has a result on every
non-empty path, and no element of any result contains the character `/`. -/
theorem split_path_no_slash (path : String) :
    (path ≠ "" → ∃ segs, split_path path = .ok segs) ∧
      ∀ segs, split_path path = .ok segs → ∀ s ∈ segs, '/' ∉ s.data := by
  refine ⟨(split_path_ok_iff path).2, ?_⟩
  intro segs h s hs
  have hp : path ≠ "" := (split_path_ok_iff path).1 ⟨segs, h⟩
  have hinv := split_path_loop_invariant path.data [] [] (by simp) (by simp)
  rcases split_path_cases path hp with ⟨_, _, hres⟩ | ⟨_, _, hres⟩
  · rw [hres] at h
    injection h with h
    subst h
    rcases List.mem_append.1 hs with h1 | h1
    · exact (hinv.1 s h1).2
    · simp only [List.mem_singleton] at h1
      subst h1
      exact hinv.2
  · rw [hres] at h
    injection h with h
    subst h
    rcases List.mem_append.1 hs with h1 | h1
    · exact (hinv.1 s h1).2
    · simp only [List.mem_singleton] at h1
      subst h1
      simp

/-- C6, on the path `/a//b/`. -/
theorem split_path_no_slash_witness :
    ∀ s ∈ ["a", "b", ""], '/' ∉ s.data :=
  (split_path_no_slash "/a//b/").2 ["a", "b", ""] rfl

/-- C7, refuted as stated: `split_path` does not return the empty sequence on
the path `/`. -/
theorem split_path_root_not_empty : split_path "/" ≠ .ok [] := by
  decide

/-- C7, as amended: on the path `/` the function `split_path` returns the
one-element sequence made of the empty string. -/
theorem split_path_root : split_path "/" = .ok [""] := by
  decide

/-! ## Dispatch: the three outcomes -/

section dispatch_outcomes

variable {Method Response : Type}

/-- C1. First match wins, with 405: when the segments of the request path are
`segs`, `R1` is the candidate at position `i` of the table, `R1` fully matches
`segs`, no candidate before position `i` does, and the handler set of `R1` does
not support the request method, then `forward_to_handler` throws the
"Method not allowed" error and calls no handler, whatever candidates follow. -/
theorem forward_to_handler_first_match_method_not_allowed
    (mux : multiplexer Method Response) (res : Response) (req : request Method)
    (segs : List String) (i : Nat) (R1 : path_handler_candidate Method Response)
    (hsplit : split_path req.url_path = .ok segs)
    (hR1 : mux._handler_candidates[i]? = some R1)
    (hmatch : fully_matches R1 segs)
    (hfirst : ∀ (j : Nat) (c : path_handler_candidate Method Response),
      j < i → mux._handler_candidates[j]? = some c → ¬ fully_matches c segs)
    (hm : R1.2.method_supported req.method = false) :
    (mux.forward_to_handler res req).result = .threw method_not_allowed_error ∧
      handler_calls (mux.forward_to_handler res req).trace = [] := by
  obtain ⟨tr1, htr, hloop⟩ :=
    candidates_loop_first_match segs res req mux._handler_candidates 0 [] i R1 hR1 hmatch hfirst
  rw [forward_to_handler_of_split mux res req segs hsplit, hloop,
    chosen_candidate_unsupported R1 _ res req tr1 hm]
  exact ⟨rfl, by rw [show (after_loop (tr1, Except.error method_not_allowed_error) :
    run Method Response).trace = tr1 from rfl, htr]; rfl⟩

/-- C1, on an example: with two routes of the shape of `/users`, the first
supporting POST only and the second supporting GET, the request `GET /users`
ends in "Method not allowed" with no handler called. -/
theorem forward_to_handler_first_match_method_not_allowed_witness :
    (two_users_routes.forward_to_handler "" ⟨"/users", .GET, []⟩).result =
        .threw method_not_allowed_error ∧
      handler_calls (two_users_routes.forward_to_handler "" ⟨"/users", .GET, []⟩).trace = [] :=
  forward_to_handler_first_match_method_not_allowed two_users_routes "" ⟨"/users", .GET, []⟩
    ["users"] 0 ([literal_matcher "users"], single_handler .POST (tagging_handler "R1"))
    rfl rfl ((fully_matches_iff_accepts_all _ _).1 (by decide))
    (fun j _ hj => absurd hj (Nat.not_lt_zero j)) rfl

/-- C2. Not found exactly when nothing matches: when the segments of the
request path are `segs`, `forward_to_handler` throws its "Path not found" error
(without having called a handler) if and only if no candidate of the table
fully matches `segs`; in particular it does so when no candidate has as many
matchers as there are segments, whatever the matchers accept. -/
theorem forward_to_handler_not_found_iff
    (mux : multiplexer Method Response) (res : Response) (req : request Method)
    (segs : List String) (hsplit : split_path req.url_path = .ok segs) :
    (((mux.forward_to_handler res req).result = .threw not_found_error ∧
        handler_calls (mux.forward_to_handler res req).trace = []) ↔
      ¬ ∃ c ∈ mux._handler_candidates, fully_matches c segs) ∧
    ((∀ c ∈ mux._handler_candidates, c.1.length ≠ segs.length) →
      (mux.forward_to_handler res req).result = .threw not_found_error ∧
        handler_calls (mux.forward_to_handler res req).trace = []) := by
  have hback : (¬ ∃ c ∈ mux._handler_candidates, fully_matches c segs) →
      (mux.forward_to_handler res req).result = .threw not_found_error ∧
        handler_calls (mux.forward_to_handler res req).trace = [] := by
    intro hno
    exact forward_to_handler_no_match mux res req segs hsplit
      (fun c hc hmatch => hno ⟨c, hc, hmatch⟩)
  refine ⟨⟨?_, hback⟩, ?_⟩
  · rintro ⟨hres, hcalls⟩ hex
    obtain ⟨i, c, hi, hc, hfirst⟩ := exists_first_match segs mux._handler_candidates hex
    obtain ⟨tr1, htr, hloop⟩ :=
      candidates_loop_first_match segs res req mux._handler_candidates 0 [] i c hi hc hfirst
    rw [forward_to_handler_of_split mux res req segs hsplit, hloop] at hres hcalls
    cases hm : c.2._handlers req.method with
    | none =>
      have hm1 : c.2.method_supported req.method = false := by
        simp [methods_handler.method_supported, hm]
      rw [chosen_candidate_unsupported c _ res req tr1 hm1] at hres
      simp [after_loop, not_found_error, method_not_allowed_error, status_4XX.NOT_FOUND,
        status_4XX.METHOD_NOT_ALLOWED] at hres
    | some h =>
      rw [chosen_candidate_supported c _ res req tr1 h hm, after_loop_handler] at hcalls
      simp only [handler_calls_append_call] at hcalls
      simp at hcalls
  · intro hsize
    exact hback (fun ⟨c, hc, hmatch⟩ => hsize c hc hmatch.1)

/-- C2, on an example: with the single route `/users/:id`, the request
`GET /users` has one segment where the route has two matchers, and ends in
"Path not found". -/
theorem forward_to_handler_not_found_iff_witness :
    split_path "/users" = .ok ["users"] ∧
      (users_id_route.forward_to_handler "" ⟨"/users", .GET, []⟩).result =
        .threw not_found_error ∧
      handler_calls (users_id_route.forward_to_handler "" ⟨"/users", .GET, []⟩).trace = [] :=
  ⟨rfl, (forward_to_handler_not_found_iff users_id_route "" ⟨"/users", .GET, []⟩
    ["users"] rfl).2 (by decide)⟩

/-- C3. Handled outcome: when the segments of the request path are `segs`, `R`
is the candidate at position `i` of the table, `R` fully matches `segs`, no
candidate before position `i` does, and the handler set of `R` has the handler
`h` for the request method, then the handler calls of `forward_to_handler` are
exactly one call, of the handler of candidate `i` for the request method with
the given response and request, and `forward_to_handler` ends as the call
`h res req` ends: it returns if the handler returns and throws what the handler
throws. -/
theorem forward_to_handler_handled
    (mux : multiplexer Method Response) (res : Response) (req : request Method)
    (segs : List String) (i : Nat) (R : path_handler_candidate Method Response)
    (h : served_req_handler Method Response)
    (hsplit : split_path req.url_path = .ok segs)
    (hR : mux._handler_candidates[i]? = some R)
    (hmatch : fully_matches R segs)
    (hfirst : ∀ (j : Nat) (c : path_handler_candidate Method Response),
      j < i → mux._handler_candidates[j]? = some c → ¬ fully_matches c segs)
    (hm : R.2._handlers req.method = some h) :
    handler_calls (mux.forward_to_handler res req).trace =
        [.handler_call i req.method res req] ∧
      (mux.forward_to_handler res req).result = completion.of_handler (h res req) := by
  obtain ⟨tr1, htr, hloop⟩ :=
    candidates_loop_first_match segs res req mux._handler_candidates 0 [] i R hR hmatch hfirst
  rw [forward_to_handler_of_split mux res req segs hsplit, hloop,
    chosen_candidate_supported R _ res req tr1 h hm, after_loop_handler, Nat.zero_add]
  refine ⟨?_, rfl⟩
  simp only [handler_calls_append_call, htr]
  rfl

/-- C3, on an example: with the single route `/users/:id` and its GET handler,
the request `GET /users/42` calls that handler once and returns with the
response the handler produced. -/
theorem forward_to_handler_handled_witness :
    handler_calls (users_id_route.forward_to_handler "" ⟨"/users/42", .GET, []⟩).trace =
        [.handler_call 0 .GET "" ⟨"/users/42", .GET, []⟩] ∧
      (users_id_route.forward_to_handler "" ⟨"/users/42", .GET, []⟩).result =
        .returned "H" ⟨"/users/42", .GET, []⟩ :=
  forward_to_handler_handled users_id_route "" ⟨"/users/42", .GET, []⟩ ["users", "42"] 0
    ([literal_matcher "users", parameter_matcher], single_handler .GET (tagging_handler "H"))
    (tagging_handler "H") rfl rfl ((fully_matches_iff_accepts_all _ _).1 (by decide))
    (fun j _ hj => absurd hj (Nat.not_lt_zero j)) rfl

end dispatch_outcomes

/-! ## Registration followed by dispatch -/

section registered_routes

variable {Method Response : Type}

/-- C8, refuted as stated: the route registered from the pattern `/` (here
with the literal compiler, on a new multiplexer) has one segment matcher, not
zero. -/
theorem handle_root_matcher_count :
    (((multiplexer.new : multiplexer method String).handle literal_matcher "/").map
        (fun mux => mux._handler_candidates.map (fun c => c.1.length)) = .ok [1]) ∧
      (((multiplexer.new : multiplexer method String).handle literal_matcher "/").map
        (fun mux => mux._handler_candidates.map (fun c => c.1.length)) ≠ .ok [0]) := by
  decide

/-- C8, as amended: on a multiplexer without routes, `handle("/")` registers a
route with exactly one segment matcher, the compiled empty segment; once a
handler `h` is set for a method on it, and provided that matcher accepts the
empty segment, `forward_to_handler` on request path `/` with that method calls
`h` once, with the given response and request, and ends as that call ends. -/
theorem handle_root_dispatch [DecidableEq Method]
    (compile_to_matcher : String → segment_matcher) (mux0 : multiplexer Method Response)
    (m : Method) (h : served_req_handler Method Response) (res : Response)
    (params : List (String × String))
    (hempty : mux0._handler_candidates = [])
    (haccept : (compile_to_matcher "").check_match "" = true) :
    ∃ mux1, mux0.handle compile_to_matcher "/" = .ok mux1 ∧
      mux1._handler_candidates.map (fun c => c.1) = [[compile_to_matcher ""]] ∧
      handler_calls ((mux1.set_back m h).forward_to_handler res ⟨"/", m, params⟩).trace =
        [.handler_call 0 m res ⟨"/", m, params⟩] ∧
      ((mux1.set_back m h).forward_to_handler res ⟨"/", m, params⟩).result =
        completion.of_handler (h res ⟨"/", m, params⟩) := by
  refine ⟨_, handle_of_split compile_to_matcher mux0 "/" [""] (by decide), ?_, ?_⟩
  · simp [hempty]
  · rw [set_back_pushed, hempty]
    have hmatch : fully_matches
        (([compile_to_matcher ""], (methods_handler.empty.set m h)) :
          path_handler_candidate Method Response) [""] :=
      (fully_matches_iff_accepts_all _ _).1 ⟨rfl, by simp [accepts_all, haccept]⟩
    exact forward_to_handler_pushed mux0._base_path [] mux0._plugin_handlers
      ([compile_to_matcher ""], methods_handler.empty.set m h) res ⟨"/", m, params⟩ [""] h
      (show split_path "/" = .ok [""] by decide) (by simp) hmatch (set_handlers_self _ m h)

/-- C8 as amended, on an example: the literal compiler, a new multiplexer and a
GET handler that appends `H` to the response. -/
theorem handle_root_dispatch_witness :
    ∃ mux1, (multiplexer.new : multiplexer method String).handle literal_matcher "/" = .ok mux1 ∧
      mux1._handler_candidates.map (fun c => c.1) = [[literal_matcher ""]] ∧
      handler_calls ((mux1.set_back .GET (tagging_handler "H")).forward_to_handler ""
          ⟨"/", .GET, []⟩).trace = [.handler_call 0 .GET "" ⟨"/", .GET, []⟩] ∧
      ((mux1.set_back .GET (tagging_handler "H")).forward_to_handler ""
          ⟨"/", .GET, []⟩).result = completion.of_handler (.ok ("H", ⟨"/", .GET, []⟩)) :=
  handle_root_dispatch literal_matcher multiplexer.new .GET (tagging_handler "H") "" []
    rfl (by decide)

/-- C9. A trailing slash is significant: for a non-empty path `x` that does not
end in a slash, `split_path` returns on `x ++ "/"` the segments of `x` followed
by one empty segment; so on a multiplexer without routes `handle(x ++ "/")`
registers a route with one matcher more than `x` has segments, and with that
route alone, whatever its handler set and whatever the matchers accept,
`forward_to_handler` on request path `x` throws "Path not found" and calls no
handler, for every method. -/
theorem split_path_trailing_slash
    (compile_to_matcher : String → segment_matcher) (mux0 : multiplexer Method Response)
    (x : String) (mh : methods_handler Method Response) (res : Response) (m : Method)
    (params : List (String × String))
    (hx : x ≠ "") (hlast : x.data.getLast? ≠ some '/')
    (hempty : mux0._handler_candidates = []) :
    ∃ segs, split_path x = .ok segs ∧ split_path (x ++ "/") = .ok (segs ++ [""]) ∧
      mux0.handle compile_to_matcher (x ++ "/") =
        .ok ⟨mux0._base_path,
          [((segs ++ [""]).map compile_to_matcher, methods_handler.empty)],
          mux0._plugin_handlers⟩ ∧
      ((⟨mux0._base_path, [((segs ++ [""]).map compile_to_matcher, mh)],
          mux0._plugin_handlers⟩ : multiplexer Method Response).forward_to_handler res
            ⟨x, m, params⟩).result = .threw not_found_error ∧
      handler_calls ((⟨mux0._base_path, [((segs ++ [""]).map compile_to_matcher, mh)],
          mux0._plugin_handlers⟩ : multiplexer Method Response).forward_to_handler res
            ⟨x, m, params⟩).trace = [] := by
  rcases split_path_cases x hx with ⟨ht, _, hres⟩ | ⟨_, h1, _⟩
  · have hdata : (x ++ "/").data = x.data ++ ['/'] := by
      rw [String.data_append]
    have hne : x ++ "/" ≠ "" := by
      intro h0
      have : (x ++ "/").data = ("" : String).data := by rw [h0]
      rw [hdata] at this
      simp at this
    have hloop : split_path_loop (x ++ "/").data [] [] =
        ((split_path_loop x.data [] []).1 ++ [String.mk (split_path_loop x.data [] []).2],
          []) := by
      rw [hdata, split_path_loop_append]
      simp [split_path_loop, ht]
    have hsplit : split_path (x ++ "/") =
        .ok (((split_path_loop x.data [] []).1 ++
          [String.mk (split_path_loop x.data [] []).2]) ++ [""]) := by
      rcases split_path_cases (x ++ "/") hne with ⟨ht2, _, _⟩ | ⟨_, _, hres2⟩
      · rw [hloop] at ht2
        exact absurd rfl ht2
      · rw [hres2, hloop]
    refine ⟨_, hres, hsplit, ?_, ?_⟩
    · rw [handle_of_split compile_to_matcher mux0 (x ++ "/") _ hsplit, hempty]
      rfl
    · apply forward_to_handler_no_match _ res ⟨x, m, params⟩ _ hres
      intro c hc hmatch
      simp only [List.mem_singleton] at hc
      subst hc
      have hlen := hmatch.1
      simp at hlen
  · exact absurd h1 hlast

/-- C9, on the example of the specification: the route `/a/b/` and the request
path `/a/b`. -/
theorem split_path_trailing_slash_witness :
    ∃ segs, split_path "/a/b" = .ok segs ∧ split_path ("/a/b" ++ "/") = .ok (segs ++ [""]) ∧
      (multiplexer.new : multiplexer method String).handle literal_matcher ("/a/b" ++ "/") =
        .ok ⟨"", [((segs ++ [""]).map literal_matcher, methods_handler.empty)], []⟩ ∧
      ((⟨"", [((segs ++ [""]).map literal_matcher, single_handler .GET (tagging_handler "H"))],
          []⟩ : multiplexer method String).forward_to_handler ""
            ⟨"/a/b", .GET, []⟩).result = .threw not_found_error ∧
      handler_calls ((⟨"", [((segs ++ [""]).map literal_matcher,
          single_handler .GET (tagging_handler "H"))], []⟩ :
            multiplexer method String).forward_to_handler "" ⟨"/a/b", .GET, []⟩).trace = [] :=
  split_path_trailing_slash literal_matcher multiplexer.new "/a/b"
    (single_handler .GET (tagging_handler "H")) "" .GET [] (by decide) (by decide) rfl

/-- C10. Literal routes match themselves: let `p` be a non-empty pattern all of
whose segments compile to literal matchers (the matcher of a segment accepts
exactly that segment), let `handle(p)` register its route behind a table and a
handler `h` be set on it for method `m`, and let `x` be a request path with the
same segments as `p`, fully matched by no earlier route. Then `forward_to_handler`
on `x` with method `m` calls `h` once, through the new route, with the given
response and request, and ends as that call ends. -/
theorem literal_route_dispatch [DecidableEq Method]
    (compile_to_matcher : String → segment_matcher) (mux0 : multiplexer Method Response)
    (p x : String) (m : Method) (h : served_req_handler Method Response) (res : Response)
    (params : List (String × String))
    (hp : p ≠ "")
    (hlit : ∀ segs, split_path p = .ok segs → ∀ seg ∈ segs, ∀ s,
      (compile_to_matcher seg).check_match s = true ↔ s = seg)
    (hx : split_path x = split_path p)
    (hearlier : ∀ segs, split_path x = .ok segs →
      ∀ c ∈ mux0._handler_candidates, ¬ fully_matches c segs) :
    ∃ mux1, mux0.handle compile_to_matcher p = .ok mux1 ∧
      handler_calls ((mux1.set_back m h).forward_to_handler res ⟨x, m, params⟩).trace =
        [.handler_call mux0._handler_candidates.length m res ⟨x, m, params⟩] ∧
      ((mux1.set_back m h).forward_to_handler res ⟨x, m, params⟩).result =
        completion.of_handler (h res ⟨x, m, params⟩) := by
  obtain ⟨segs, hsegs⟩ := (split_path_ok_iff p).2 hp
  have hxs : split_path x = .ok segs := by rw [hx, hsegs]
  refine ⟨_, handle_of_split compile_to_matcher mux0 p segs hsegs, ?_⟩
  rw [set_back_pushed]
  have hmatch : fully_matches
      ((segs.map compile_to_matcher, (methods_handler.empty.set m h)) :
        path_handler_candidate Method Response) segs := by
    refine ⟨by simp, ?_⟩
    intro i m1 s h1 h2
    simp only [List.getElem?_map, h2, Option.map_some', Option.some.injEq] at h1
    subst h1
    exact (hlit segs hsegs s (List.getElem?_mem h2) s).2 rfl
  exact forward_to_handler_pushed mux0._base_path mux0._handler_candidates
    mux0._plugin_handlers (segs.map compile_to_matcher, methods_handler.empty.set m h)
    res ⟨x, m, params⟩ segs h hxs (hearlier segs hxs) hmatch (set_handlers_self _ m h)

/-- C10, on the example of the specification: the pattern and the request path
are both `/a/b/`, with its trailing empty literal segment, and the route is
registered behind the route `/users/:id`, which does not match. -/
theorem literal_route_dispatch_witness :
    ∃ mux1, users_id_route.handle literal_matcher "/a/b/" = .ok mux1 ∧
      handler_calls ((mux1.set_back .GET (tagging_handler "H")).forward_to_handler ""
          ⟨"/a/b/", .GET, []⟩).trace = [.handler_call 1 .GET "" ⟨"/a/b/", .GET, []⟩] ∧
      ((mux1.set_back .GET (tagging_handler "H")).forward_to_handler ""
          ⟨"/a/b/", .GET, []⟩).result = completion.of_handler (.ok ("H", ⟨"/a/b/", .GET, []⟩)) :=
  literal_route_dispatch literal_matcher users_id_route "/a/b/" "/a/b/" .GET
    (tagging_handler "H") "" [] (by decide)
    (fun _ _ seg _ s => by simp [literal_matcher])
    rfl
    (fun segs hsegs c hc hmatch => by
      have h2 : split_path "/a/b/" = .ok ["a", "b", ""] := by decide
      rw [h2] at hsegs
      injection hsegs with hsegs
      subst hsegs
      simp only [users_id_route, List.mem_singleton] at hc
      subst hc
      exact absurd hmatch.1 (by decide))

end registered_routes

/-! ## Further lemmas on `split_path` -/

/-- A stretch of characters without slash is read into the buffer. -/
theorem split_path_loop_no_slash (w : List Char) (chunks : List String) (tmp : List Char)
    (hw : '/' ∉ w) : split_path_loop w chunks tmp = (chunks, tmp ++ w) := by
  induction w generalizing tmp with
  | nil => simp [split_path_loop]
  | cons c w ih =>
    have hc : c ≠ '/' := fun h => hw (by simp [h])
    have hw1 : '/' ∉ w := fun h => hw (List.mem_cons_of_mem _ h)
    simp only [split_path_loop, hc, if_false]
    rw [ih _ hw1]
    simp

/-- The loop keeps the characters other than the slash, in order: what the
chunks and the buffer hold at the exit is what they held at the start followed
by the characters read that are not slashes. -/
theorem split_path_loop_concat (rest : List Char) (chunks : List String) (tmp : List Char) :
    ((split_path_loop rest chunks tmp).1.map String.data).flatten ++
        (split_path_loop rest chunks tmp).2 =
      (chunks.map String.data).flatten ++ tmp ++ rest.filter (fun c => decide (c ≠ '/')) := by
  induction rest generalizing chunks tmp with
  | nil => simp [split_path_loop]
  | cons c rest ih =>
    simp only [split_path_loop]
    split
    · rename_i hc
      split
      · rw [ih]; simp [hc]
      · rename_i ht
        have ht1 : tmp = [] := by simpa using ht
        rw [ih]; simp [hc, ht1]
    · rename_i hc
      rw [ih]; simp [hc]

/-- Two non-empty paths on which the loop exits in the same state have the same
segments. -/
theorem split_path_congr (a b : String) (ha : a ≠ "") (hb : b ≠ "")
    (h : split_path_loop a.data [] [] = split_path_loop b.data [] []) :
    split_path a = split_path b := by
  rcases split_path_cases a ha with ⟨hta, _, hra⟩ | ⟨hta, _, hra⟩ <;>
    rcases split_path_cases b hb with ⟨htb, _, hrb⟩ | ⟨htb, _, hrb⟩
  · rw [hra, hrb, h]
  · rw [h] at hta; exact absurd htb hta
  · rw [h] at hta; exact absurd hta htb
  · rw [hra, hrb, h]

theorem string_append_ne_empty_left (a b : String) (ha : a ≠ "") : a ++ b ≠ "" := by
  intro h0
  have h1 : (a ++ b).data = ("" : String).data := by rw [h0]
  rw [String.data_append] at h1
  have h2 : a.data = [] := (List.append_eq_nil.1 h1).1
  exact string_data_ne_nil a ha h2

theorem string_append_ne_empty_right (a b : String) (hb : b ≠ "") : a ++ b ≠ "" := by
  intro h0
  have h1 : (a ++ b).data = ("" : String).data := by rw [h0]
  rw [String.data_append] at h1
  have h2 : b.data = [] := (List.append_eq_nil.1 h1).2
  exact string_data_ne_nil b hb h2

/-- A slash in front of a non-empty path does not change its segments. -/
theorem split_path_slash_cons (x : String) (hx : x ≠ "") :
    split_path ("/" ++ x) = split_path x := by
  apply split_path_congr _ _ (string_append_ne_empty_right "/" x hx) hx
  rw [String.data_append]
  simp [split_path_loop]

/-- The loop on the joined segments: every segment but the last is pushed, and
the last one is in the buffer at the exit. -/
theorem split_path_loop_join (s : List String) (chunks : List String) (hs : s ≠ [])
    (hfree : ∀ a ∈ s, '/' ∉ a.data) (hne : ∀ a ∈ s.dropLast, a ≠ "") :
    split_path_loop (join_segments s).data chunks [] =
      (chunks ++ s.dropLast, (s.getLast?.getD "").data) := by
  induction s generalizing chunks with
  | nil => exact absurd rfl hs
  | cons a rest ih =>
    cases rest with
    | nil =>
      simp only [join_segments]
      rw [split_path_loop_no_slash a.data chunks [] (hfree a (by simp))]
      simp
    | cons b rest =>
      have ha : a ≠ "" := hne a (by simp)
      have had : a.data ≠ [] := string_data_ne_nil a ha
      have hdata : (join_segments (a :: b :: rest)).data =
          a.data ++ ('/' :: (join_segments (b :: rest)).data) := by
        simp only [join_segments, String.data_append]
        simp
      rw [hdata, split_path_loop_append,
        split_path_loop_no_slash a.data chunks [] (hfree a (by simp))]
      simp only [List.nil_append, split_path_loop, if_true, ne_eq, had, not_false_eq_true]
      rw [ih (chunks ++ [String.mk a.data]) (by simp)
        (fun c hc => hfree c (List.mem_cons_of_mem _ hc))
        (fun c hc => hne c (by simp only [List.dropLast_cons₂]; exact List.mem_cons_of_mem _ hc))]
      simp

theorem string_join_data_aux (l : List String) (acc : String) :
    (l.foldl (fun r s => r ++ s) acc).data = acc.data ++ (l.map String.data).flatten := by
  induction l generalizing acc with
  | nil => simp
  | cons a l ih => simp [ih, String.data_append]

/-- The characters of the concatenation of a list of strings. -/
theorem string_join_data (l : List String) :
    (String.join l).data = (l.map String.data).flatten := by
  unfold String.join
  rw [string_join_data_aux]
  simp

/-! ## Further properties of `split_path` -/

/-- C11, refuted as stated: the segments of the path `/` are the single empty
segment, their join is the empty path, and `split_path` does not return the
single empty segment on it. -/
theorem split_path_rejoin_root :
    split_path "/" = .ok [""] ∧ join_segments [""] = "" ∧
      split_path (join_segments [""]) ≠ .ok [""] := by
  decide

/-- C11, as amended: for every path `p` with at least one character other than
the slash, `split_path` returns segments `s` on `p`, and on the string obtained
by joining `s` with single slashes it returns `s` again. -/
theorem split_path_rejoin (p : String) (hp : ∃ c ∈ p.data, c ≠ '/') :
    ∃ s, split_path p = .ok s ∧ split_path (join_segments s) = .ok s := by
  obtain ⟨c, hcmem, hc⟩ := hp
  have hpne : p ≠ "" := by
    intro h0; subst h0; simp at hcmem
  have hinv := split_path_loop_invariant p.data [] [] (by simp) (by simp)
  have hcat := split_path_loop_concat p.data [] []
  rcases split_path_cases p hpne with ⟨ht, _, hres⟩ | ⟨ht, _, hres⟩
  · refine ⟨_, hres, ?_⟩
    have hloop := split_path_loop_join
      ((split_path_loop p.data [] []).1 ++ [String.mk (split_path_loop p.data [] []).2]) []
      (by simp)
      (by
        intro a ha
        rcases List.mem_append.1 ha with h1 | h1
        · exact (hinv.1 a h1).2
        · simp only [List.mem_singleton] at h1
          subst h1; exact hinv.2)
      (by
        intro a ha
        simp only [List.dropLast_concat] at ha
        exact (hinv.1 a ha).1)
    simp only [List.dropLast_concat, List.nil_append, List.getLast?_concat,
      Option.getD_some] at hloop
    simp only [split_path, hloop, ne_eq, ht, not_false_eq_true, if_true]
  · refine ⟨_, hres, ?_⟩
    have hloop := split_path_loop_join
      ((split_path_loop p.data [] []).1 ++ [""]) []
      (by simp)
      (by
        intro a ha
        rcases List.mem_append.1 ha with h1 | h1
        · exact (hinv.1 a h1).2
        · simp only [List.mem_singleton] at h1
          subst h1; simp)
      (by
        intro a ha
        simp only [List.dropLast_concat] at ha
        exact (hinv.1 a ha).1)
    simp only [List.dropLast_concat, List.nil_append, List.getLast?_concat,
      Option.getD_some] at hloop
    have hchunks : (split_path_loop p.data [] []).1 ≠ [] := by
      intro h0
      rw [h0, ht] at hcat
      have : c ∈ List.filter (fun c => decide (c ≠ '/')) p.data :=
        List.mem_filter.2 ⟨hcmem, by simpa using hc⟩
      simp only [List.map_nil, List.flatten_nil, List.append_nil, List.nil_append] at hcat
      rw [← hcat] at this
      simp at this
    have hj : join_segments ((split_path_loop p.data [] []).1 ++ [""]) ≠ "" := by
      cases hst : (split_path_loop p.data [] []).1 with
      | nil => exact absurd hst hchunks
      | cons a more =>
        have ha : a ≠ "" := (hinv.1 a (by rw [hst]; simp)).1
        cases more with
        | nil =>
          simp only [List.cons_append, List.nil_append, join_segments]
          exact string_append_ne_empty_left _ _ (string_append_ne_empty_left _ _ ha)
        | cons b more =>
          simp only [List.cons_append, join_segments]
          exact string_append_ne_empty_left _ _ (string_append_ne_empty_left _ _ ha)
    rcases split_path_cases _ hj with ⟨ht2, _, _⟩ | ⟨_, _, hres2⟩
    · rw [hloop] at ht2
      exact absurd rfl ht2
    · rw [hres2, hloop]

/-- C11 as amended, on the path `/a//b/`: its segments `a`, `b` and the empty
one join to `a/b/`, which has the same segments. -/
theorem split_path_rejoin_witness :
    ∃ s, split_path "/a//b/" = .ok s ∧ split_path (join_segments s) = .ok s :=
  split_path_rejoin "/a//b/" ⟨'a', by decide, by decide⟩

/-- C17, the failing input: on the empty path the index `path.length() - 1`
wraps around to `SIZE_MAX`, the read `path[path.length() - 1]` is made all the
same and is out of range, and `split_path` has no defined result. -/
theorem split_path_empty_reads_out_of_range :
    size_t_pred ("" : String).data.length = SIZE_MAX ∧
      ¬ (size_t_pred ("" : String).data.length ≤ ("" : String).data.length) ∧
      string_at "" (size_t_pred ("" : String).data.length) =
        .error (.string_index_out_of_range SIZE_MAX 0) ∧
      split_path "" = .error (.string_index_out_of_range SIZE_MAX 0) := by
  decide

/-- C18. Segmentation loses no characters: `split_path` has a result on every
non-empty path, and the concatenation of the elements of any result, in order,
is the path with every slash removed. -/
theorem split_path_join_eq_filter (path : String) :
    (path ≠ "" → ∃ segs, split_path path = .ok segs) ∧
      ∀ segs, split_path path = .ok segs →
        String.join segs = String.mk (path.data.filter (fun c => decide (c ≠ '/'))) := by
  refine ⟨(split_path_ok_iff path).2, ?_⟩
  intro segs h
  have hp : path ≠ "" := (split_path_ok_iff path).1 ⟨segs, h⟩
  have hcat := split_path_loop_concat path.data [] []
  simp only [List.map_nil, List.flatten_nil, List.append_nil, List.nil_append] at hcat
  have hdata : (String.join segs).data = path.data.filter (fun c => decide (c ≠ '/')) := by
    rw [string_join_data, ← hcat]
    rcases split_path_cases path hp with ⟨_, _, hres⟩ | ⟨ht, _, hres⟩
    · rw [hres] at h
      injection h with h
      subst h
      simp
    · rw [hres] at h
      injection h with h
      subst h
      simp [ht]
  exact String.ext hdata

/-- C18, on the path `/a//b/`. -/
theorem split_path_join_eq_filter_witness :
    String.join ["a", "b", ""] =
      String.mk ("/a//b/".data.filter (fun c => decide (c ≠ '/'))) :=
  (split_path_join_eq_filter "/a//b/").2 ["a", "b", ""] rfl

/-! ## Further lemmas on dispatch -/

section dispatch_further

variable {Method Response : Type}

/-- Dispatch when the first fully matching candidate lacks the request method. -/
theorem forward_to_handler_first_unsupported
    (mux : multiplexer Method Response) (res : Response) (req : request Method)
    (segs : List String) (i : Nat) (c : path_handler_candidate Method Response)
    (hsplit : split_path req.url_path = .ok segs)
    (hi : mux._handler_candidates[i]? = some c) (hc : fully_matches c segs)
    (hfirst : ∀ (j : Nat) (c1 : path_handler_candidate Method Response),
      j < i → mux._handler_candidates[j]? = some c1 → ¬ fully_matches c1 segs)
    (hm : c.2._handlers req.method = none) :
    (mux.forward_to_handler res req).result = .threw method_not_allowed_error ∧
      handler_calls (mux.forward_to_handler res req).trace = [] := by
  obtain ⟨tr1, htr, hloop⟩ :=
    candidates_loop_first_match segs res req mux._handler_candidates 0 [] i c hi hc hfirst
  have hm1 : c.2.method_supported req.method = false := by
    simp [methods_handler.method_supported, hm]
  rw [forward_to_handler_of_split mux res req segs hsplit, hloop,
    chosen_candidate_unsupported c _ res req tr1 hm1]
  refine ⟨rfl, ?_⟩
  show handler_calls tr1 = []
  rw [htr]; rfl

/-- Dispatch when the first fully matching candidate has a handler for the
request method. -/
theorem forward_to_handler_first_supported
    (mux : multiplexer Method Response) (res : Response) (req : request Method)
    (segs : List String) (i : Nat) (c : path_handler_candidate Method Response)
    (h : served_req_handler Method Response)
    (hsplit : split_path req.url_path = .ok segs)
    (hi : mux._handler_candidates[i]? = some c) (hc : fully_matches c segs)
    (hfirst : ∀ (j : Nat) (c1 : path_handler_candidate Method Response),
      j < i → mux._handler_candidates[j]? = some c1 → ¬ fully_matches c1 segs)
    (hm : c.2._handlers req.method = some h) :
    handler_calls (mux.forward_to_handler res req).trace =
        [.handler_call i req.method res req] ∧
      (mux.forward_to_handler res req).result = completion.of_handler (h res req) := by
  obtain ⟨tr1, htr, hloop⟩ :=
    candidates_loop_first_match segs res req mux._handler_candidates 0 [] i c hi hc hfirst
  rw [forward_to_handler_of_split mux res req segs hsplit, hloop,
    chosen_candidate_supported c _ res req tr1 h hm, after_loop_handler, Nat.zero_add]
  refine ⟨?_, rfl⟩
  simp only [handler_calls_append_call, htr]
  rfl

/-- The handler calls of a dispatch: none, or the single call of a handler for
the request method with the response and the request as given. -/
theorem forward_to_handler_handler_calls (mux : multiplexer Method Response) (res : Response)
    (req : request Method) :
    handler_calls (mux.forward_to_handler res req).trace = [] ∨
      ∃ i, handler_calls (mux.forward_to_handler res req).trace =
        [.handler_call i req.method res req] := by
  cases hsplit : split_path req.url_path with
  | error f =>
    left
    unfold multiplexer.forward_to_handler
    rw [hsplit]
    rfl
  | ok segs =>
    by_cases hex : ∃ c ∈ mux._handler_candidates, fully_matches c segs
    · obtain ⟨i, c, hi, hc, hfirst⟩ := exists_first_match segs mux._handler_candidates hex
      cases hm : c.2._handlers req.method with
      | none =>
        exact Or.inl (forward_to_handler_first_unsupported mux res req segs i c hsplit hi hc
          hfirst hm).2
      | some h =>
        exact Or.inr ⟨i, (forward_to_handler_first_supported mux res req segs i c h hsplit hi hc
          hfirst hm).1⟩
    · exact Or.inl (forward_to_handler_no_match mux res req segs hsplit
        (fun c hc hmatch => hex ⟨c, hc, hmatch⟩)).2

theorem decision_of_not_found (r : run Method Response)
    (hr : r.result = .threw not_found_error) (hc : handler_calls r.trace = []) :
    r.decision = .not_found := by
  simp [run.decision, hr, hc]

theorem decision_of_method_not_allowed (r : run Method Response)
    (hr : r.result = .threw method_not_allowed_error) (hc : handler_calls r.trace = []) :
    r.decision = .method_not_allowed := by
  have hne : method_not_allowed_error ≠ not_found_error := by decide
  simp [run.decision, hr, hc, hne]

theorem decision_of_handled (r : run Method Response) (i : Nat) (m : Method) (res : Response)
    (req : request Method) (hc : handler_calls r.trace = [.handler_call i m res req]) :
    r.decision = .handled i := by
  simp [run.decision, hc]

/-- The routing decision depends on the request only through the segments of
its path and its method. -/
theorem forward_to_handler_decision_congr (mux : multiplexer Method Response)
    (res1 res2 : Response) (req1 req2 : request Method) (segs : List String)
    (h1 : split_path req1.url_path = .ok segs) (h2 : split_path req2.url_path = .ok segs)
    (hmeth : req1.method = req2.method) :
    (mux.forward_to_handler res1 req1).decision =
      (mux.forward_to_handler res2 req2).decision := by
  by_cases hex : ∃ c ∈ mux._handler_candidates, fully_matches c segs
  · obtain ⟨i, c, hi, hc, hfirst⟩ := exists_first_match segs mux._handler_candidates hex
    cases hm : c.2._handlers req1.method with
    | none =>
      have hm2 : c.2._handlers req2.method = none := by rw [← hmeth]; exact hm
      obtain ⟨ha, hb⟩ :=
        forward_to_handler_first_unsupported mux res1 req1 segs i c h1 hi hc hfirst hm
      obtain ⟨hc2, hd⟩ :=
        forward_to_handler_first_unsupported mux res2 req2 segs i c h2 hi hc hfirst hm2
      rw [decision_of_method_not_allowed _ ha hb, decision_of_method_not_allowed _ hc2 hd]
    | some h =>
      have hm2 : c.2._handlers req2.method = some h := by rw [← hmeth]; exact hm
      rw [decision_of_handled _ i _ _ _
          (forward_to_handler_first_supported mux res1 req1 segs i c h h1 hi hc hfirst hm).1,
        decision_of_handled _ i _ _ _
          (forward_to_handler_first_supported mux res2 req2 segs i c h h2 hi hc hfirst hm2).1]
  · have hno : ∀ c ∈ mux._handler_candidates, ¬ fully_matches c segs :=
      fun c hc hmatch => hex ⟨c, hc, hmatch⟩
    obtain ⟨ha, hb⟩ := forward_to_handler_no_match mux res1 req1 segs h1 hno
    obtain ⟨hc2, hd⟩ := forward_to_handler_no_match mux res2 req2 segs h2 hno
    rw [decision_of_not_found _ ha hb, decision_of_not_found _ hc2 hd]

/-- The segment loop adds to the trace only calls of `check_match` for its own
candidate. -/
theorem segment_loop_events (c : Nat) (ms : List segment_matcher) (ss : List String)
    (k : Nat) (tr : List (event Method Response)) (e : event Method Response)
    (he : e ∈ (segment_loop c ms ss k tr).2) :
    e ∈ tr ∨ ∃ i s, e = .check_match c i s := by
  induction ms generalizing ss k tr with
  | nil =>
    simp only [segment_loop] at he
    exact Or.inl he
  | cons m ms ih =>
    cases ss with
    | nil =>
      simp only [segment_loop] at he
      exact Or.inl he
    | cons s ss =>
      simp only [segment_loop] at he
      split at he
      · rcases List.mem_append.1 he with h1 | h1
        · exact Or.inl h1
        · exact Or.inr ⟨k, s, by simpa using h1⟩
      · rcases ih ss (k + 1) _ he with h1 | h1
        · rcases List.mem_append.1 h1 with h2 | h2
          · exact Or.inl h2
          · exact Or.inr ⟨k, s, by simpa using h2⟩
        · exact Or.inr h1

/-- The step for the chosen candidate adds no call of `check_match`. -/
theorem chosen_candidate_check_events (cand : path_handler_candidate Method Response)
    (idx : Nat) (res : Response) (req : request Method) (tr : List (event Method Response))
    (c i : Nat) (s : String)
    (he : event.check_match c i s ∈ (chosen_candidate cand idx res req tr).1) :
    event.check_match c i s ∈ tr := by
  simp only [chosen_candidate] at he
  split at he
  · exact he
  · split at he
    · rcases List.mem_append.1 he with h1 | h1
      · exact h1
      · simp at h1
    · rcases List.mem_append.1 he with h1 | h1
      · exact h1
      · simp at h1

/-- Every call of `check_match` made by the candidate loop is made for a
candidate that has as many matchers as the request has segments. -/
theorem candidates_loop_check_events (segs : List String) (res : Response)
    (req : request Method) (table : List (path_handler_candidate Method Response))
    (idx : Nat) (tr : List (event Method Response)) (c i : Nat) (s : String)
    (he : event.check_match c i s ∈ (candidates_loop segs res req table idx tr).1) :
    event.check_match c i s ∈ tr ∨
      ∃ cand, idx ≤ c ∧ table[c - idx]? = some cand ∧ cand.1.length = segs.length := by
  induction table generalizing idx tr with
  | nil =>
    simp only [candidates_loop] at he
    exact Or.inl he
  | cons c0 rest ih =>
    have hstep : ∀ cand, idx + 1 ≤ c → rest[c - (idx + 1)]? = some cand →
        (c0 :: rest)[c - idx]? = some cand := by
      intro cand hle hget
      have : c - idx = (c - (idx + 1)) + 1 := by omega
      rw [this, List.getElem?_cons_succ]
      exact hget
    simp only [candidates_loop] at he
    split at he
    · rcases ih (idx + 1) tr he with h1 | ⟨cand, hle, hget, hlen⟩
      · exact Or.inl h1
      · exact Or.inr ⟨cand, by omega, hstep cand hle hget, hlen⟩
    · rename_i hlen0
      have hlen1 : c0.1.length = segs.length := by simpa using hlen0
      have hown : ∀ e : event Method Response,
          e = event.check_match c i s → e ∈ (segment_loop idx c0.1 segs 0 tr).2 →
          event.check_match c i s ∈ tr ∨
            ∃ cand, idx ≤ c ∧ (c0 :: rest)[c - idx]? = some cand ∧
              cand.1.length = segs.length := by
        intro e he1 he2
        rcases segment_loop_events idx c0.1 segs 0 tr e he2 with h1 | ⟨i1, s1, h1⟩
        · exact Or.inl (he1 ▸ h1)
        · rw [he1] at h1
          injection h1 with hc _ _
          subst hc
          exact Or.inr ⟨c0, Nat.le_refl _, by simp, hlen1⟩
      split at he
      · exact hown _ rfl (chosen_candidate_check_events c0 idx res req _ c i s he)
      · rcases ih (idx + 1) _ he with h1 | ⟨cand, hle, hget, hlen⟩
        · exact hown _ rfl h1
        · exact Or.inr ⟨cand, by omega, hstep cand hle hget, hlen⟩

/-- The access `operator[]` yields the handler that `index` names. -/
theorem subscript_fst [DecidableEq Method] (mh : methods_handler Method Response) (m : Method) :
    (mh.subscript m).1 = mh.index m := by
  unfold methods_handler.subscript methods_handler.index
  cases mh._handlers m <;> rfl

/-- The access `operator[]` for a supported method adds no entry. -/
theorem subscript_snd_of_supported [DecidableEq Method] (mh : methods_handler Method Response)
    (m : Method) (hm : mh.method_supported m = true) : (mh.subscript m).2 = mh := by
  unfold methods_handler.subscript
  unfold methods_handler.method_supported at hm
  cases h : mh._handlers m with
  | none => rw [h] at hm; simp at hm
  | some f => rfl

theorem chosen_candidate_state_eq [DecidableEq Method] (mux : multiplexer Method Response)
    (cand : path_handler_candidate Method Response) (idx : Nat) (res : Response)
    (req : request Method) (tr : List (event Method Response)) :
    chosen_candidate_state mux cand idx res req tr =
      (chosen_candidate cand idx res req tr, mux) := by
  simp only [chosen_candidate_state, chosen_candidate, subscript_fst]
  split
  · rfl
  · split <;> rfl

theorem candidates_loop_state_eq [DecidableEq Method] (segs : List String) (res : Response)
    (req : request Method) (table : List (path_handler_candidate Method Response))
    (idx : Nat) (mux : multiplexer Method Response) (tr : List (event Method Response)) :
    candidates_loop_state segs res req table idx mux tr =
      (candidates_loop segs res req table idx tr, mux) := by
  induction table generalizing idx tr with
  | nil => rfl
  | cons c0 rest ih =>
    simp only [candidates_loop_state, candidates_loop]
    split
    · exact ih _ _
    · split
      · exact chosen_candidate_state_eq _ _ _ _ _ _
      · exact ih _ _

end dispatch_further

/-! ## Registration, parameters, frame and trace properties -/

section registration_and_frame

variable {Method Response : Type}

/-- C12. Registration appends and never merges: when the segments of the
pattern `p` are `segs`, `handle(p)` yields the multiplexer whose table is the
old table, unchanged and in the same order, followed by one new candidate that
has the compiled segments of `segs`, in order, as shape and the empty handler
set; the base path and the plugins are unchanged; and a write through the
returned reference reaches the handler set of that last candidate only. -/
theorem handle_appends [DecidableEq Method]
    (compile_to_matcher : String → segment_matcher) (mux : multiplexer Method Response)
    (p : String) (segs : List String) (hsplit : split_path p = .ok segs) :
    mux.handle compile_to_matcher p =
        .ok ⟨mux._base_path,
          mux._handler_candidates ++ [(segs.map compile_to_matcher, methods_handler.empty)],
          mux._plugin_handlers⟩ ∧
      ∀ (m : Method) (h : served_req_handler Method Response),
        (⟨mux._base_path,
          mux._handler_candidates ++ [(segs.map compile_to_matcher, methods_handler.empty)],
          mux._plugin_handlers⟩ : multiplexer Method Response).set_back m h =
        ⟨mux._base_path,
          mux._handler_candidates ++
            [(segs.map compile_to_matcher, methods_handler.empty.set m h)],
          mux._plugin_handlers⟩ := by
  constructor
  · simp only [multiplexer.handle, get_segments, hsplit]
  · intro m h
    simp [multiplexer.set_back]

/-- C12, on an example: a third route of the shape of `/users` is registered
behind the two that the table already holds, and all three are kept. -/
theorem handle_appends_witness :
    two_users_routes.handle literal_matcher "/users" =
        .ok ⟨"", two_users_routes._handler_candidates ++
          [(["users"].map literal_matcher, methods_handler.empty)], []⟩ ∧
      ∀ (m : method) (h : served_req_handler method String),
        (⟨"", two_users_routes._handler_candidates ++
          [(["users"].map literal_matcher, methods_handler.empty)], []⟩ :
            multiplexer method String).set_back m h =
        ⟨"", two_users_routes._handler_candidates ++
          [(["users"].map literal_matcher, methods_handler.empty.set m h)], []⟩ :=
  handle_appends literal_matcher two_users_routes "/users" ["users"] rfl

/-- C13, refuted as stated: on a multiplexer constructed with the base path
`/api`, the route created by `handle("/users")` has one matcher, where the
compiled segments of `/api/users` are two. -/
theorem handle_base_path_not_prepended :
    (((multiplexer.with_base_path "/api" : multiplexer method String).handle
        literal_matcher "/users").map
          (fun mux => mux._handler_candidates.map (fun c => c.1.length)) = .ok [1]) ∧
      ((get_segments literal_matcher ("/api" ++ "/users")).map List.length = .ok 2) := by
  decide

/-- C13, as amended: for a multiplexer constructed with base path `b` and a
pattern `p` with segments `segs`, the route created by `handle(p)` has the
compiled segments of `p` alone as its shape, whatever `b` is; the base path is
kept as a member and not used. -/
theorem handle_with_base_path
    (compile_to_matcher : String → segment_matcher) (b p : String) (segs : List String)
    (hsplit : split_path p = .ok segs) :
    (multiplexer.with_base_path b : multiplexer Method Response).handle compile_to_matcher p =
      .ok ⟨b, [(segs.map compile_to_matcher, methods_handler.empty)], []⟩ := by
  simp only [multiplexer.handle, get_segments, hsplit, multiplexer.with_base_path,
    List.nil_append]

/-- C13 as amended, on the example of the base path `/api` and the pattern
`/users`. -/
theorem handle_with_base_path_witness :
    (multiplexer.with_base_path "/api" : multiplexer method String).handle
        literal_matcher "/users" =
      .ok ⟨"/api", [(["users"].map literal_matcher, methods_handler.empty)], []⟩ :=
  handle_with_base_path literal_matcher "/api" "/users" ["users"] rfl

/-- C14, refuted as stated: with the route `/users/:id`, whose second matcher
is the parameter matcher named `id`, and its GET handler, the request
`GET /users/42` without parameters has the segments `users` and `42` and the
handler is called with the request as it came, in which `id` is not bound. -/
theorem forward_to_handler_binds_no_parameter :
    split_path "/users/42" = .ok ["users", "42"] ∧
      handler_calls (users_id_variants_route.forward_to_handler ""
          ⟨"/users/42", .GET, []⟩).trace =
        [.handler_call 0 .GET "" ⟨"/users/42", .GET, []⟩] ∧
      (⟨"/users/42", .GET, []⟩ : request method).param "id" = none :=
  ⟨by decide, rfl, rfl⟩

/-- C14, as amended: whenever `forward_to_handler` calls a handler, it calls it
for the method of the request and with the response and the request exactly as
they were given to `forward_to_handler`; dispatch binds no parameter, so the
handler sees a parameter bound only if the incoming request had it bound. -/
theorem forward_to_handler_passes_request
    (mux : multiplexer Method Response) (res : Response) (req : request Method)
    (i : Nat) (m : Method) (r : Response) (q : request Method)
    (h : event.handler_call i m r q ∈ (mux.forward_to_handler res req).trace) :
    m = req.method ∧ r = res ∧ q = req ∧ ∀ name, q.param name = req.param name := by
  have hmem : event.handler_call i m r q ∈
      handler_calls (mux.forward_to_handler res req).trace :=
    List.mem_filter.2 ⟨h, rfl⟩
  rcases forward_to_handler_handler_calls mux res req with h0 | ⟨j, hj⟩
  · rw [h0] at hmem
    simp at hmem
  · rw [hj] at hmem
    simp only [List.mem_singleton] at hmem
    injection hmem with _ hm hr hq
    subst hq
    exact ⟨hm, hr, rfl, fun _ => rfl⟩

/-- C14 as amended, on the example of the route `/users/:id` and the request
`GET /users/42` that comes with `id` already bound to `7`: the handler call in
the trace carries the request as given. -/
theorem forward_to_handler_passes_request_witness :
    event.handler_call 0 .GET "" ⟨"/users/42", .GET, [("id", "7")]⟩ ∈
        (users_id_variants_route.forward_to_handler ""
          ⟨"/users/42", .GET, [("id", "7")]⟩).trace ∧
      (method.GET = (⟨"/users/42", .GET, [("id", "7")]⟩ : request method).method ∧
        ("" : String) = "" ∧
        (⟨"/users/42", .GET, [("id", "7")]⟩ : request method) =
          ⟨"/users/42", .GET, [("id", "7")]⟩ ∧
        ∀ name, (⟨"/users/42", .GET, [("id", "7")]⟩ : request method).param name =
          (⟨"/users/42", .GET, [("id", "7")]⟩ : request method).param name) :=
  have hmem : event.handler_call 0 .GET "" ⟨"/users/42", .GET, [("id", "7")]⟩ ∈
      (users_id_variants_route.forward_to_handler ""
        ⟨"/users/42", .GET, [("id", "7")]⟩).trace := by
    rw [show (users_id_variants_route.forward_to_handler ""
        ⟨"/users/42", .GET, [("id", "7")]⟩).trace =
      [.check_match 0 0 "users", .check_match 0 1 "42",
        .handler_call 0 .GET "" ⟨"/users/42", .GET, [("id", "7")]⟩] from rfl]
    simp
  ⟨hmem, forward_to_handler_passes_request users_id_variants_route ""
    ⟨"/users/42", .GET, [("id", "7")]⟩ 0 .GET "" ⟨"/users/42", .GET, [("id", "7")]⟩ hmem⟩

/-- C15. Dispatch is read-only on the multiplexer: for every multiplexer,
response and request, the call of `forward_to_handler`, however it ends, leaves
the multiplexer as it was, with the same candidates in the same order, each
with its shape and its handler set, the same plugins and the same base path;
and the lookup `operator[]`, made on a copy and only for a supported method,
adds no entry. The finished call is the one `forward_to_handler` describes. -/
theorem forward_to_handler_state_unchanged [DecidableEq Method]
    (mux : multiplexer Method Response) (res : Response) (req : request Method) :
    (mux.forward_to_handler_state res req).1 = mux.forward_to_handler res req ∧
      (mux.forward_to_handler_state res req).2 = mux ∧
      (mux.forward_to_handler_state res req).2._handler_candidates = mux._handler_candidates ∧
      (mux.forward_to_handler_state res req).2._plugin_handlers = mux._plugin_handlers ∧
      (mux.forward_to_handler_state res req).2._base_path = mux._base_path ∧
      ∀ (mh : methods_handler Method Response) (m : Method),
        mh.method_supported m = true → (mh.subscript m).2 = mh := by
  have hstate : mux.forward_to_handler_state res req = (mux.forward_to_handler res req, mux) := by
    unfold multiplexer.forward_to_handler_state multiplexer.forward_to_handler
    cases split_path req.url_path with
    | error f => rfl
    | ok segs =>
      simp only [candidates_loop_state_eq]
  rw [hstate]
  exact ⟨rfl, rfl, rfl, rfl, rfl, fun mh m hm => subscript_snd_of_supported mh m hm⟩

/-- C15, on an example: after the request `GET /users/42` has been dispatched
to the handler of the route `/users/:id`, the multiplexer is as before, and the
lookup of GET in the handler set of that route leaves the set as it is. -/
theorem forward_to_handler_state_unchanged_witness :
    (users_id_route.forward_to_handler_state "" ⟨"/users/42", .GET, []⟩).2 = users_id_route ∧
      ((single_handler .GET (tagging_handler "H")).subscript .GET).2 =
        single_handler .GET (tagging_handler "H") :=
  ⟨(forward_to_handler_state_unchanged users_id_route "" ⟨"/users/42", .GET, []⟩).2.1,
    (forward_to_handler_state_unchanged users_id_route "" ⟨"/users/42", .GET, []⟩).2.2.2.2.2
      (single_handler .GET (tagging_handler "H")) .GET rfl⟩

/-- C16. Shape mismatch short-circuits: when the segments of the request path
are `segs` and the candidate at position `c` of the table has a number of
matchers other than the number of segments, the trace of `forward_to_handler`
holds no call of `check_match` for candidate `c`, at any position and on any
segment. -/
theorem forward_to_handler_skips_other_sizes
    (mux : multiplexer Method Response) (res : Response) (req : request Method)
    (segs : List String) (c : Nat) (cand : path_handler_candidate Method Response)
    (hsplit : split_path req.url_path = .ok segs)
    (hc : mux._handler_candidates[c]? = some cand)
    (hlen : cand.1.length ≠ segs.length) :
    ∀ (i : Nat) (s : String),
      event.check_match c i s ∉ (mux.forward_to_handler res req).trace := by
  intro i s hmem
  rw [forward_to_handler_of_split mux res req segs hsplit] at hmem
  have hmem1 : event.check_match c i s ∈
      (candidates_loop segs res req mux._handler_candidates 0 []).1 := by
    unfold after_loop at hmem
    split at hmem
    · exact hmem
    · split at hmem <;> exact hmem
  rcases candidates_loop_check_events segs res req _ 0 [] c i s hmem1 with h1 | ⟨cand1, _, hget, hl⟩
  · simp at h1
  · rw [Nat.sub_zero, hc] at hget
    injection hget with hget
    subst hget
    exact hlen hl

/-- C16, on an example: with the routes `/users` and `/users/:id` and the
request `GET /users/42` of two segments, the matcher of the first route, which
has one matcher, is called neither on `users` nor on `42`. -/
theorem forward_to_handler_skips_other_sizes_witness :
    event.check_match 0 0 "users" ∉
        (users_and_users_id_routes.forward_to_handler "" ⟨"/users/42", .GET, []⟩).trace ∧
      event.check_match 0 0 "42" ∉
        (users_and_users_id_routes.forward_to_handler "" ⟨"/users/42", .GET, []⟩).trace :=
  ⟨forward_to_handler_skips_other_sizes users_and_users_id_routes ""
      ⟨"/users/42", .GET, []⟩ ["users", "42"] 0
      ([literal_matcher "users"], single_handler .GET (tagging_handler "L"))
      rfl rfl (by decide) 0 "users",
    forward_to_handler_skips_other_sizes users_and_users_id_routes ""
      ⟨"/users/42", .GET, []⟩ ["users", "42"] 0
      ([literal_matcher "users"], single_handler .GET (tagging_handler "L"))
      rfl rfl (by decide) 0 "42"⟩

/-- C19. A leading slash is insignificant: for a non-empty path `x`, the path
`"/" ++ x`, and `x` behind any number of slashes, has the segments of `x`;
hence `get_segments` and `handle` build the same route from both, and
`forward_to_handler` takes the same routing decision for a request with either
path. -/
theorem split_path_leading_slash
    (compile_to_matcher : String → segment_matcher) (mux : multiplexer Method Response)
    (res : Response) (m : Method) (params : List (String × String))
    (x : String) (hx : x ≠ "") :
    split_path ("/" ++ x) = split_path x ∧
      (∀ n : Nat, split_path (String.mk (List.replicate n '/') ++ x) = split_path x) ∧
      get_segments compile_to_matcher ("/" ++ x) = get_segments compile_to_matcher x ∧
      mux.handle compile_to_matcher ("/" ++ x) = mux.handle compile_to_matcher x ∧
      (mux.forward_to_handler res ⟨"/" ++ x, m, params⟩).decision =
        (mux.forward_to_handler res ⟨x, m, params⟩).decision := by
  have h1 : split_path ("/" ++ x) = split_path x := split_path_slash_cons x hx
  refine ⟨h1, ?_, ?_, ?_, ?_⟩
  · intro n
    apply split_path_congr _ _ (string_append_ne_empty_right _ x hx) hx
    rw [String.data_append]
    induction n with
    | zero => rfl
    | succ k ih =>
      simp only [List.replicate_succ, List.cons_append, split_path_loop, if_true]
      simpa using ih
  · simp only [get_segments, h1]
  · simp only [multiplexer.handle, get_segments, h1]
  · obtain ⟨segs, hsegs⟩ := (split_path_ok_iff x).2 hx
    exact forward_to_handler_decision_congr mux res res _ _ segs (by rw [h1]; exact hsegs)
      hsegs rfl

/-- C19, on the example of the paths `/users/42` and `users/42` with the route
`/users/:id`. -/
theorem split_path_leading_slash_witness :
    split_path ("/" ++ "users/42") = split_path "users/42" ∧
      (∀ n : Nat, split_path (String.mk (List.replicate n '/') ++ "users/42") =
        split_path "users/42") ∧
      get_segments literal_matcher ("/" ++ "users/42") =
        get_segments literal_matcher "users/42" ∧
      users_id_route.handle literal_matcher ("/" ++ "users/42") =
        users_id_route.handle literal_matcher "users/42" ∧
      (users_id_route.forward_to_handler "" ⟨"/" ++ "users/42", .GET, []⟩).decision =
        (users_id_route.forward_to_handler "" ⟨"users/42", .GET, []⟩).decision :=
  split_path_leading_slash literal_matcher users_id_route "" .GET [] "users/42" (by decide)

end registration_and_frame

end served
